import Mathlib

/-!
# hls_library: the UART text formatter (`uart.cpp`)

A shallow embedding of `CUART::print`, `CUART::write_dec` and `CUART::write_hex`.

Conventions of the embedding.

* A `char` / `uint8_t` is the natural number of its byte (0..255), a `uint32_t` a natural
  number below `2^32`.  Arithmetic that the source performs in a narrower type carries its
  `% 256` or `% 4294967296` explicitly.
* The transmit FIFO is write-only, so every routine is modelled by the list of bytes it
  pushes into `_xmit_fifo`, oldest byte first.
* A format string is the list of its bytes.  Reading at or past the end of the list yields
  the terminating NUL (`List.getD _ 0`); the scanner never reads past the first NUL.
-/

namespace CUART

/-! ## Character codes -/

/-- Bytes of a string literal. -/
def str (s : String) : List Nat := s.toList.map Char.toNat

/-- Code of `write_char` / `write_byte`: the byte `(uint8_t)c` that enters `_xmit_fifo`. -/
def write_char (c : Nat) : Nat := c % 256

/-! ## `write_dec` -/

/-- The table `powers[]` of `write_dec`. -/
def powers : List Nat :=
  [1000000000, 100000000, 10000000, 1000000, 100000, 10000, 1000, 100, 10, 1]

/-- The inner loop of `write_dec`,
`for (i=0; i<9; ++i) { if (value < power_of_ten) break; ++digit; value -= power_of_ten; }`,
with the remaining iteration count as first argument.  Returns `(digit, value)`. -/
def digitLoop : Nat → Nat → Nat → Nat → Nat × Nat
  | 0, digit, value, _ => (digit, value)
  | n + 1, digit, value, power_of_ten =>
    if value < power_of_ten then (digit, value)
    else digitLoop n ((digit + 1) % 256) (value - power_of_ten) power_of_ten

/-- Local variables of `write_dec` that live across the loop over the powers of ten. -/
structure DecState where
  value : Nat
  out_index : Nat
  msd_index : Nat
  buffer : List Nat
  deriving DecidableEq, Repr

/-- One iteration of the loop `for (pow_idx = 0; pow_idx < MAX_DIGITS; ++pow_idx)` of
`write_dec`, for the table entry `power_of_ten`. -/
def decIter (is_negative : Bool) (s : DecState) (power_of_ten : Nat) : DecState :=
  let is_rightmost_digit := power_of_ten == 1
  let dv := if is_rightmost_digit then ((48 + s.value) % 256, s.value)
            else digitLoop 9 48 s.value power_of_ten
  let digit := dv.1
  let value := dv.2
  if s.msd_index == 0 then
    if digit == 48 && !is_rightmost_digit then
      { value := value, out_index := (s.out_index + 1) % 256, msd_index := 0,
        buffer := s.buffer.set s.out_index 32 }
    else if is_negative then
      let msd_index := (s.out_index + 255) % 256
      { value := value, out_index := (s.out_index + 1) % 256, msd_index := msd_index,
        buffer := (s.buffer.set msd_index 45).set s.out_index digit }
    else
      { value := value, out_index := (s.out_index + 1) % 256, msd_index := s.out_index,
        buffer := s.buffer.set s.out_index digit }
  else
    { value := value, out_index := (s.out_index + 1) % 256, msd_index := s.msd_index,
      buffer := s.buffer.set s.out_index digit }

/-- State of `write_dec` after the loop over the powers of ten: the buffer holds 31 spaces
and a NUL, `out_index = BUFFER_WIDTH - MAX_DIGITS - 1 = 21`, `msd_index = 0`. -/
def decLoop (is_negative : Bool) (value : Nat) : DecState :=
  powers.foldl (decIter is_negative) ⟨value, 21, 0, List.replicate 31 32 ++ [0]⟩

/-- Code of `CUART::write_dec(value, is_signed, width)`: the bytes written to the UART. -/
def write_dec (value : Nat) (is_signed : Bool) (width : Nat) : List Nat :=
  let width := if width > 31 then 31 else width
  let is_negative := is_signed && (value &&& 0x80000000 != 0)
  -- `value = ~value + 1` on a `uint32_t`
  let value := if is_negative then ((4294967295 - value) + 1) % 4294967296 else value
  let s := decLoop is_negative value
  let string_length := (31 + 256 - s.msd_index) % 256
  let lm := if width > string_length then (width, (31 + 256 - width) % 256)
            else (string_length, s.msd_index)
  (List.range lm.1).map (fun i => write_char (s.buffer.getD (lm.2 + i) 0))

/-! ## `write_hex` -/

/-- The table `shift[]` of `write_hex`. -/
def shift : List Nat := [28, 24, 20, 16, 12, 8, 4, 0]

/-- Local variables of `write_hex` that live across the loop over the nybbles. -/
structure HexState where
  out_index : Nat
  msd_index : Nat
  buffer : List Nat
  deriving DecidableEq, Repr

/-- One iteration of the loop `for (digit_index = 0; digit_index < MAX_DIGITS; ++digit_index)`
of `write_hex`. -/
def hexIter (value fill_char hex_offset : Nat) (s : HexState) (digit_index : Nat) : HexState :=
  let nybble := (value >>> shift.getD digit_index 0) &&& 0xF
  let digit := if nybble < 10 then nybble + 48 else nybble + hex_offset
  if s.msd_index == 0xFF then
    if digit == 48 && digit_index != 7 then
      { out_index := (s.out_index + 1) % 256, msd_index := 0xFF,
        buffer := s.buffer.set s.out_index fill_char }
    else
      { out_index := (s.out_index + 1) % 256, msd_index := s.out_index,
        buffer := s.buffer.set s.out_index digit }
  else
    { out_index := (s.out_index + 1) % 256, msd_index := s.msd_index,
      buffer := s.buffer.set s.out_index digit }

/-- State of `write_hex` after the loop over the eight nybbles: the buffer holds 15 fill
characters and a NUL, `out_index = BUFFER_WIDTH - MAX_DIGITS - 1 = 7`, `msd_index = 0xFF`. -/
def hexLoop (value fill_char hex_offset : Nat) : HexState :=
  (List.range 8).foldl (hexIter value fill_char hex_offset)
    ⟨7, 0xFF, List.replicate 15 fill_char ++ [0]⟩

/-- Code of `CUART::write_hex(value, zero_fill, uppercase, width)`: the bytes written to
the UART. -/
def write_hex (value : Nat) (zero_fill uppercase : Bool) (width : Nat) : List Nat :=
  let fill_char := if zero_fill then 48 else 32
  let hex_offset := if uppercase then 55 else 87
  let width := if width > 15 then 15 else width
  let s := hexLoop value fill_char hex_offset
  let string_length := (15 + 256 - s.msd_index) % 256
  let lm := if width > string_length then (width, (15 + 256 - width) % 256)
            else (string_length, s.msd_index)
  (List.range lm.1).map (fun i => write_char (s.buffer.getD (lm.2 + i) 0))

/-! ## `print` -/

/-- The width loop of `print`,
`for (i=0; i<3; ++i) { if (*fmt < '0' || *fmt > '9') break; width = width*10 + *fmt - '0'; ++fmt; }`,
with the remaining iteration count as first argument.  `width` is a `uint8_t`.  Returns
`(width, pos)`. -/
def widthLoop (fmt : List Nat) : Nat → Nat → Nat → Nat × Nat
  | 0, width, pos => (width, pos)
  | n + 1, width, pos =>
    let c := fmt.getD pos 0
    if c < 48 || c > 57 then (width, pos)
    else
      let width := ((width <<< 3) + (width <<< 1)) % 256
      let width := (width + c - 48) % 256
      widthLoop fmt n width (pos + 1)

/-- What one pass through the body of the main loop of `print` does: the bytes it writes,
the indices of `v[]` it reads, the new offset of `fmt`, the new `value_index`, and whether
the loop goes on (`false` after a `break`). -/
structure Iter where
  emitted : List Nat
  reads : List Nat
  pos : Nat
  value_index : Nat
  goes_on : Bool
  deriving DecidableEq, Repr

/-- The statement `if (value_index > 3) value_index = 3;` applied after `value_index++`
on a `uint8_t`. -/
def bump (value_index : Nat) : Nat :=
  let value_index := (value_index + 1) % 256
  if value_index > 3 then 3 else value_index

/-- One pass through the body of the main loop of `print`, entered with `fmt` at offset
`pos`. -/
def printIter (fmt v : List Nat) (pos value_index : Nat) : Iter :=
  let c := fmt.getD pos 0
  let pos := pos + 1
  if c == 0 then ⟨[], [], pos, value_index, false⟩
  else if c == 10 then ⟨[write_char 13, write_char 10], [], pos, value_index, true⟩
  else if c != 37 then ⟨[write_char c], [], pos, value_index, true⟩
  else if fmt.getD pos 0 == 37 then ⟨[write_char 37], [], pos + 1, value_index, true⟩
  else if fmt.getD pos 0 == 0 then ⟨[write_char 37], [], pos, value_index, false⟩
  else
    let zero_fill := fmt.getD pos 0 == 48
    let wp := widthLoop fmt 3 0 pos
    let width := wp.1
    let pos := wp.2
    if fmt.getD pos 0 == 0 then ⟨[], [], pos, value_index, false⟩
    else
      let format_specifier := fmt.getD pos 0
      let pos := pos + 1
      let arg := v.getD value_index 0
      if format_specifier == 100 || format_specifier == 105 then
        ⟨write_dec arg true width, [value_index], pos, bump value_index, true⟩
      else if format_specifier == 117 then
        ⟨write_dec arg false width, [value_index], pos, bump value_index, true⟩
      else if format_specifier == 120 then
        ⟨write_hex arg zero_fill false width, [value_index], pos, bump value_index, true⟩
      else if format_specifier == 88 then
        ⟨write_hex arg zero_fill true width, [value_index], pos, bump value_index, true⟩
      else if format_specifier == 99 then
        ⟨[write_char (arg &&& 0xFF)], [value_index], pos, bump value_index, true⟩
      else
        ⟨[write_char format_specifier], [], pos, (if value_index > 3 then 3 else value_index),
          true⟩

/-- The main loop of `print`, `for (input_count = 0; input_count < 128; ++input_count)`,
with the remaining iteration count as first argument.  Returns the bytes written and the
indices of `v[]` read, both in order. -/
def printLoop (fmt v : List Nat) : Nat → Nat → Nat → List Nat × List Nat
  | 0, _, _ => ([], [])
  | n + 1, pos, value_index =>
    let r := printIter fmt v pos value_index
    if r.goes_on then
      let rest := printLoop fmt v n r.pos r.value_index
      (r.emitted ++ rest.1, r.reads ++ rest.2)
    else (r.emitted, r.reads)

/-- Code of `CUART::print(fmt, v0, v1, v2, v3)`: the bytes written to the UART. -/
def print (fmt : List Nat) (v0 v1 v2 v3 : Nat) : List Nat :=
  (printLoop fmt [v0, v1, v2, v3] 128 0 0).1

/-- The indices of `v[]` that `CUART::print` reads, in the order it reads them. -/
def printReads (fmt : List Nat) (v0 v1 v2 v3 : Nat) : List Nat :=
  (printLoop fmt [v0, v1, v2, v3] 128 0 0).2

/-! ## Reference notions the statements compare the code with -/

/-- ASCII decimal notation of `v`, most significant digit first; `"0"` for zero. -/
def decimal (v : Nat) : List Nat :=
  if v = 0 then [48] else (Nat.digits 10 v).reverse.map (fun d => 48 + d)

/-- Reading of a string of ASCII decimal digits, continuing from the number `acc`; `none`
when a byte is not a digit. -/
def parseDigits : List Nat → Nat → Option Nat
  | [], acc => some acc
  | c :: cs, acc => if 48 ≤ c ∧ c ≤ 57 then parseDigits cs (acc * 10 + (c - 48)) else none

/-- Ordinary decimal parsing: leading spaces are skipped, then at least one digit and digits
only must follow. -/
def parseDec (s : List Nat) : Option Nat :=
  match s.dropWhile (fun c => c == 32) with
  | [] => none
  | c :: cs => parseDigits (c :: cs) 0

/-- ASCII character of the hexadecimal digit `d`: `'0'..'9'`, then `'A'..'F'` or
`'a'..'f'`. -/
def hexChar (uppercase : Bool) (d : Nat) : Nat :=
  if d < 10 then '0'.toNat + d
  else if uppercase then 'A'.toNat + (d - 10) else 'a'.toNat + (d - 10)

/-- ASCII hexadecimal notation of `v` without leading zeros; `"0"` for zero. -/
def hexadecimal (uppercase : Bool) (v : Nat) : List Nat :=
  if v = 0 then [48] else (Nat.digits 16 v).reverse.map (hexChar uppercase)

/-- What `print` is to write for a literal character: the character itself, `'\r' '\n'` for
a `'\n'`. -/
def crlf (c : Nat) : List Nat := if c = 10 then [13, 10] else [c]

/-- Decimal notation of the 32-bit value `v` read as a two's-complement signed number. -/
def signedDecimal (v : Nat) : List Nat :=
  if v.testBit 31 then 45 :: decimal (4294967296 - v) else decimal v

/-! ## Proof devices: the buffer discipline shared by `write_dec` and `write_hex` -/

/-- The part of the loop state that both encoders share. -/
structure Place where
  out_index : Nat
  msd_index : Nat
  buffer : List Nat

/-- The common tail of one iteration of either encoder: a digit character is stored at
`out_index`, a leading zero that is not the last digit is replaced by the fill character,
and the first significant digit fixes `msd_index` (preceded by `'-'` when negative). -/
def placeStep (fill sentinel : Nat) (neg : Bool) (s : Place) (digit : Nat) (last : Bool) :
    Place :=
  if s.msd_index = sentinel then
    if digit = 48 ∧ last = false then
      ⟨(s.out_index + 1) % 256, sentinel, s.buffer.set s.out_index fill⟩
    else if neg then
      ⟨(s.out_index + 1) % 256, (s.out_index + 255) % 256,
        (s.buffer.set ((s.out_index + 255) % 256) 45).set s.out_index digit⟩
    else ⟨(s.out_index + 1) % 256, s.out_index, s.buffer.set s.out_index digit⟩
  else ⟨(s.out_index + 1) % 256, s.msd_index, s.buffer.set s.out_index digit⟩

/-- The step `placeStep` run over a list of digit characters, the last one being flagged. -/
def placeFold (fill sentinel : Nat) (neg : Bool) : Place → List Nat → Place
  | s, [] => s
  | s, c :: cs => placeFold fill sentinel neg (placeStep fill sentinel neg s c cs.isEmpty) cs

/-- A digit string without its leading `'0'` characters, the last character always kept. -/
def sig : List Nat → List Nat
  | [] => []
  | [c] => [c]
  | c :: c' :: cs => if c = 48 then sig (c' :: cs) else c :: c' :: cs

/-- The `k` low digits of `v` in base `b`, most significant first, each mapped by `f`. -/
def padDigits (b : Nat) (f : Nat → Nat) : Nat → Nat → List Nat
  | 0, _ => []
  | k + 1, v => f (v / b ^ k % b) :: padDigits b f k v

/-- The powers of ten below `10 ^ k`, largest first. -/
def descPow : Nat → List Nat
  | 0 => []
  | k + 1 => 10 ^ k :: descPow k

/-- The part of the state of `write_dec` that `placeStep` works on. -/
def DecState.place (s : DecState) : Place := ⟨s.out_index, s.msd_index, s.buffer⟩

/-- The part of the state of `write_hex` that `placeStep` works on. -/
def HexState.place (s : HexState) : Place := ⟨s.out_index, s.msd_index, s.buffer⟩

/-- The character `write_hex` computes for a nybble:
`(nybble < 10) ? nybble + 48 : nybble + hex_offset`. -/
def hexDigit (hex_offset nybble : Nat) : Nat :=
  if nybble < 10 then nybble + 48 else nybble + hex_offset

/-- The last loop of either encoder: `len` bytes of the buffer from index `msd` on. -/
def emit (buffer : List Nat) (msd len : Nat) : List Nat :=
  (List.range len).map (fun i => write_char (buffer.getD (msd + i) 0))

/-- The closing part of either encoder, from the computation of `string_length` on, for a
buffer of `cap + 1` bytes. -/
def finish (cap : Nat) (buffer : List Nat) (msd_index width : Nat) : List Nat :=
  let string_length := (cap + 256 - msd_index) % 256
  let lm := if width > string_length then (width, (cap + 256 - width) % 256)
            else (string_length, msd_index)
  emit buffer lm.2 lm.1

/-! ## `read_byte` -/

/-- Code of `CUART::read_byte(c, blocking)`.  `c` is the byte `*c` holds on entry and
`recv_fifo` the content of `_recv_fifo`, oldest byte first.  Returns the result of the call,
the byte `*c` holds on exit and the FIFO left behind; `none` stands for a blocking
`_recv_fifo.read` that waits on an empty FIFO and so does not return. -/
def read_byte (c : Nat) (blocking : Bool) (recv_fifo : List Nat) :
    Option (Bool × Nat × List Nat) :=
  if blocking then
    match recv_fifo with
    | [] => none
    | value :: rest => some (true, value, rest)
  else
    -- `_recv_fifo.read_nb(value)`
    match recv_fifo with
    | value :: rest => some (true, value, rest)
    | [] => some (false, c, [])

/-! ## Buffer accesses of the encoders -/

/-- Indices of `buffer` written by one iteration of the loop of `write_dec`, in order:
`msd_index` for the `'-'` when this iteration meets the first significant digit of a negative
value, then `out_index` for the digit. -/
def decIterIdx (is_negative : Bool) (s : DecState) (power_of_ten : Nat) : List Nat :=
  let is_rightmost_digit := power_of_ten == 1
  let dv := if is_rightmost_digit then ((48 + s.value) % 256, s.value)
            else digitLoop 9 48 s.value power_of_ten
  let digit := dv.1
  if s.msd_index == 0 then
    if digit == 48 && !is_rightmost_digit then [s.out_index]
    else if is_negative then [(s.out_index + 255) % 256, s.out_index]
    else [s.out_index]
  else [s.out_index]

/-- Indices of `buffer` written by the loop of `write_dec` over the table entries given,
entered in state `s`. -/
def decLog (is_negative : Bool) : DecState → List Nat → List Nat
  | _, [] => []
  | s, p :: ps => decIterIdx is_negative s p ++ decLog is_negative (decIter is_negative s p) ps

/-- Every index at which `write_dec(value, is_signed, width)` accesses `buffer`, in program
order: the fill loop, the NUL, the loop over the powers of ten, the closing read loop
(`buffer[msd_index + i]`). -/
def decAccess (value : Nat) (is_signed : Bool) (width : Nat) : List Nat :=
  let width := if width > 31 then 31 else width
  let is_negative := is_signed && (value &&& 0x80000000 != 0)
  let value := if is_negative then ((4294967295 - value) + 1) % 4294967296 else value
  let s := decLoop is_negative value
  let string_length := (31 + 256 - s.msd_index) % 256
  let lm := if width > string_length then (width, (31 + 256 - width) % 256)
            else (string_length, s.msd_index)
  List.range 31 ++ [31]
    ++ decLog is_negative ⟨value, 21, 0, List.replicate 31 32 ++ [0]⟩ powers
    ++ (List.range lm.1).map (fun i => lm.2 + i)

/-- Indices of `buffer` written by the loop of `write_hex` over the digit indices given,
entered in state `s`: each iteration writes `buffer[out_index]`. -/
def hexLog (value fill_char hex_offset : Nat) : HexState → List Nat → List Nat
  | _, [] => []
  | s, i :: is =>
    s.out_index :: hexLog value fill_char hex_offset (hexIter value fill_char hex_offset s i) is

/-- Every index at which `write_hex(value, zero_fill, uppercase, width)` accesses `buffer`,
in program order. -/
def hexAccess (value : Nat) (zero_fill uppercase : Bool) (width : Nat) : List Nat :=
  let fill_char := if zero_fill then 48 else 32
  let hex_offset := if uppercase then 55 else 87
  let width := if width > 15 then 15 else width
  let s := hexLoop value fill_char hex_offset
  let string_length := (15 + 256 - s.msd_index) % 256
  let lm := if width > string_length then (width, (15 + 256 - width) % 256)
            else (string_length, s.msd_index)
  List.range 15 ++ [15]
    ++ hexLog value fill_char hex_offset ⟨7, 0xFF, List.replicate 15 fill_char ++ [0]⟩
        (List.range 8)
    ++ (List.range lm.1).map (fun i => lm.2 + i)

/-! ## Reference notions for the value slots -/

/-- An element of a format string that one pass of the main loop of `print` handles and
after which the scan goes on. -/
inductive Item where
  /-- A character other than `'%'` and NUL. -/
  | lit (c : Nat)
  /-- The sequence `"%%"`. -/
  | percent
  /-- A conversion: `'%'`, up to three width digits and one of `d i u x X c`. -/
  | conv (digits : List Nat) (spec : Nat)
  /-- An unknown specifier: `'%'`, up to three width digits and any other character. -/
  | other (digits : List Nat) (spec : Nat)
  deriving DecidableEq, Repr

/-- Whether `c` is one of `'0'..'9'`. -/
def isDigit (c : Nat) : Bool := decide (48 ≤ c) && decide (c ≤ 57)

/-- Whether `c` is one of the specifiers `d i u x X c`. -/
def isSpecifier (c : Nat) : Bool :=
  c == 100 || c == 105 || c == 117 || c == 120 || c == 88 || c == 99

/-- Well-formedness of an element: bytes are below 256, width digits are at most three
digits and as many as the scanner would take, a conversion ends in a specifier and an
unknown specifier in a character that is none (nor NUL, nor a second `'%'` right after the
first). -/
def Item.ok : Item → Bool
  | Item.lit c => c != 37 && c != 0 && decide (c < 256)
  | Item.percent => true
  | Item.conv digits spec =>
    digits.all isDigit && decide (digits.length ≤ 3) && isSpecifier spec
  | Item.other digits spec =>
    digits.all isDigit && decide (digits.length ≤ 3) && !isSpecifier spec && spec != 0
      && decide (spec < 256) && (decide (digits.length = 3) || !isDigit spec)
      && (!digits.isEmpty || spec != 37)

/-- The characters of an element. -/
def Item.bytes : Item → List Nat
  | Item.lit c => [c]
  | Item.percent => [37, 37]
  | Item.conv digits spec => 37 :: (digits ++ [spec])
  | Item.other digits spec => 37 :: (digits ++ [spec])

/-- The format string made of the elements given. -/
def formatOf (items : List Item) : List Nat := items.flatMap Item.bytes

/-- The number of conversions among the elements given. -/
def conversions : List Item → Nat
  | [] => 0
  | Item.conv _ _ :: items => conversions items + 1
  | _ :: items => conversions items

/-- The value the width loop of `print` leaves in the `uint8_t` `width` after the digits
given. -/
def decodeWidth (digits : List Nat) : Nat :=
  digits.foldl (fun width c => ((((width <<< 3) + (width <<< 1)) % 256) + c - 48) % 256) 0

/-- The field a conversion with specifier `spec` is to produce for the argument `arg`:
signed decimal for `d` and `i`, unsigned decimal for `u`, hexadecimal for `x` and `X`, the
low byte for `c`. -/
def convField (spec : Nat) (zero_fill : Bool) (width arg : Nat) : List Nat :=
  if spec = 100 ∨ spec = 105 then write_dec arg true width
  else if spec = 117 then write_dec arg false width
  else if spec = 120 then write_hex arg zero_fill false width
  else if spec = 88 then write_hex arg zero_fill true width
  else [arg % 256]

/-- What `print` is to write for the elements given when `k` conversions precede them: the
conversion number `k` (counting from 0) formats the argument `v[min(k, 3)]`. -/
def expected (v : List Nat) : List Item → Nat → List Nat
  | [], _ => []
  | Item.lit c :: items, k => crlf c ++ expected v items k
  | Item.percent :: items, k => 37 :: expected v items k
  | Item.conv digits spec :: items, k =>
    convField spec (digits.head? == some 48) (decodeWidth digits) (v.getD (min k 3) 0)
      ++ expected v items (k + 1)
  | Item.other _ spec :: items, k => spec :: expected v items k

/-! ## Proof devices for the format scanner -/

/-- The bytes the literal branches of `print` write for the character `c`. -/
def litBytes (c : Nat) : List Nat :=
  if c = 10 then [write_char 13, write_char 10] else [write_char c]

end CUART

/-!
# hls_library: the AXI4-Lite transactor (`axi4lite.cpp`)

`_cmd_fifo` carries `ap_uint<65>` words and `_rsp_fifo` `ap_uint<34>` words.  The pair of
streams is modelled with the record of the operations performed on it.
-/

namespace Caxi4lite

/-- An operation on the channel pair. -/
inductive ChanOp where
  /-- The call `_cmd_fifo.write(word)`. -/
  | send (word : Nat)
  /-- The call `_rsp_fifo.read()` that returned `word`. -/
  | recv (word : Nat)
  deriving DecidableEq, Repr

/-- The channel pair of a `Caxi4lite`: the words written to `_cmd_fifo`, the words that
`_rsp_fifo` delivers (both oldest first), and the record of every operation so far. -/
structure Channels where
  cmd_fifo : List Nat
  rsp_fifo : List Nat
  log : List ChanOp
  deriving DecidableEq, Repr

/-- The call `_cmd_fifo.write(word)`. -/
def cmdWrite (ch : Channels) (word : Nat) : Channels :=
  { ch with cmd_fifo := ch.cmd_fifo ++ [word], log := ch.log ++ [ChanOp.send word] }

/-- The blocking call `_rsp_fifo.read()`; `none` when no word ever arrives, in which case
the call does not return. -/
def rspRead (ch : Channels) : Option (Nat × Channels) :=
  match ch.rsp_fifo with
  | [] => none
  | word :: rest => some (word, { ch with rsp_fifo := rest, log := ch.log ++ [ChanOp.recv word] })

/-- The command word of `write`, an `ap_uint<65>`:
`rw_bit | ((int65)data) << 32 | addr` with `rw_bit = ((int65)1) << 64`. -/
def writeCommand (addr data : Nat) : Nat :=
  let rw_bit := (1 <<< 64) % 2 ^ 65
  (rw_bit ||| ((data <<< 32) % 2 ^ 65) ||| addr) % 2 ^ 65

/-- The command word of `read`: `addr` converted to the `ap_uint<65>` of the stream. -/
def readCommand (addr : Nat) : Nat := addr % 2 ^ 65

/-- Body of the loop `for (int i=0; i<2; ++i) switch(i)` of `write`, on the local
`response` and the channels. -/
def writeCase (value : Nat) (i : Nat) (st : Nat × Channels) : Option (Nat × Channels) :=
  if i = 0 then some (st.1, cmdWrite st.2 value)
  else if i = 1 then
    match rspRead st.2 with
    | none => none
    | some (word, ch) => some (word, ch)
  else some st

/-- Code of `Caxi4lite::write(addr, data)`: the status returned and the channels after the
call. -/
def write (addr data : Nat) (ch : Channels) : Option (Nat × Channels) :=
  let value := writeCommand addr data
  let response := 0
  (writeCase value 0 (response, ch)).bind fun st =>
  (writeCase value 1 st).bind fun st =>
  some ((st.1 >>> 32) % 256, st.2)

/-- Body of the loop `for (int i=0; i<2; ++i) switch(i)` of `read`, on the locals
`response`, `*p_data` and the channels. -/
def readCase (addr : Nat) (i : Nat) (st : Nat × Nat × Channels) :
    Option (Nat × Nat × Channels) :=
  if i = 0 then some (st.1, st.2.1, cmdWrite st.2.2 (readCommand addr))
  else if i = 1 then
    match rspRead st.2.2 with
    | none => none
    | some (word, ch) => some (word, (word &&& 0xFFFFFFFF) % 4294967296, ch)
  else some st

/-- Code of `Caxi4lite::read(addr, p_data)`, `p_data` being the value `*p_data` holds on
entry: the status returned, the value `*p_data` holds on exit and the channels after the
call. -/
def read (addr p_data : Nat) (ch : Channels) : Option (Nat × Nat × Channels) :=
  let response := 0
  (readCase addr 0 (response, p_data, ch)).bind fun st =>
  (readCase addr 1 st).bind fun st =>
  some ((st.1 >>> 32) % 256, st.2.1, st.2.2)

end Caxi4lite

namespace CUART

/-! ## Lemmas on lists -/

theorem set_length_append {α : Type} (A : List α) (b : α) (B : List α) (c : α) :
    (A ++ b :: B).set A.length c = A ++ c :: B := by
  induction A with
  | nil => rfl
  | cons a A ih => simp [ih]

theorem set_append_at {α : Type} (A B : List α) (c : α) (n : Nat) (hn : n = A.length)
    (hB : 0 < B.length) : (A ++ B).set n c = (A ++ [c]) ++ B.drop 1 := by
  subst hn
  cases B with
  | nil => simp at hB
  | cons b B => simp [set_length_append]

theorem set_last_append {α : Type} (A B : List α) (c : α) (n : Nat) (hn : n + 1 = A.length) :
    (A ++ B).set n c = (A.dropLast ++ [c]) ++ B := by
  induction A generalizing n with
  | nil => simp at hn
  | cons a A ih =>
    cases A with
    | nil =>
      have : n = 0 := by simpa using hn
      subst this
      simp
    | cons a' A =>
      cases n with
      | zero => simp at hn
      | succ n =>
        have h := ih n (by simpa using hn)
        simp only [List.cons_append, List.set_cons_succ, List.dropLast_cons₂] at h ⊢
        rw [h]

theorem sig_length_le : ∀ cs : List Nat, (sig cs).length ≤ cs.length
  | [] => by simp [sig]
  | [_] => by simp [sig]
  | c :: c' :: cs => by
    have ih := sig_length_le (c' :: cs)
    unfold sig
    split
    · simp only [List.length_cons] at ih ⊢
      omega
    · simp

theorem sig_ne_nil : ∀ cs : List Nat, cs ≠ [] → sig cs ≠ []
  | [], h => absurd rfl h
  | [_], _ => by simp [sig]
  | c :: c' :: cs, _ => by
    have ih := sig_ne_nil (c' :: cs) (by simp)
    unfold sig
    split
    · exact ih
    · simp

/-! ## The buffer discipline -/

theorem placeFold_found (fill sentinel : Nat) (neg : Bool) (cs : List Nat) :
    ∀ (s : Place) (A B : List Nat), s.msd_index ≠ sentinel → s.buffer = A ++ B →
      A.length = s.out_index → cs.length ≤ B.length → s.out_index + cs.length < 256 →
      placeFold fill sentinel neg s cs
        = ⟨s.out_index + cs.length, s.msd_index, A ++ cs ++ B.drop cs.length⟩ := by
  induction cs with
  | nil =>
    intro s A B _ hb _ _ _
    simp [placeFold, ← hb]
  | cons c cs ih =>
    intro s A B hm hb hA hlen hout
    simp only [List.length_cons] at hlen hout
    have hstep : placeStep fill sentinel neg s c cs.isEmpty
        = ⟨s.out_index + 1, s.msd_index, (A ++ [c]) ++ B.drop 1⟩ := by
      unfold placeStep
      rw [if_neg hm, hb, set_append_at A B c s.out_index hA.symm (by omega),
        Nat.mod_eq_of_lt (by omega)]
    have h := ih ⟨s.out_index + 1, s.msd_index, (A ++ [c]) ++ B.drop 1⟩ (A ++ [c]) (B.drop 1)
      hm rfl (by simp [hA]) (by simp only [List.length_drop]; omega)
      (by simp only []; omega)
    rw [placeFold, hstep, h]
    simp only [List.append_assoc, List.singleton_append, List.drop_drop, List.length_cons,
      List.cons_append, Place.mk.injEq, and_true, true_and]
    constructor
    · omega
    · simp [Nat.add_comm]

theorem placeStep_zero (fill sentinel : Nat) (neg : Bool) (s : Place) (A B : List Nat)
    (hm : s.msd_index = sentinel) (hb : s.buffer = A ++ B) (hA : A.length = s.out_index)
    (hB : 0 < B.length) (hout : s.out_index + 1 < 256) :
    placeStep fill sentinel neg s 48 false
      = ⟨s.out_index + 1, sentinel, (A ++ [fill]) ++ B.drop 1⟩ := by
  unfold placeStep
  rw [if_pos hm, if_pos ⟨rfl, rfl⟩, hb, set_append_at A B fill s.out_index hA.symm hB,
    Nat.mod_eq_of_lt hout]

theorem placeStep_first (fill sentinel : Nat) (neg : Bool) (s : Place) (A B : List Nat)
    (c : Nat) (last : Bool) (hc : ¬ (c = 48 ∧ last = false))
    (hm : s.msd_index = sentinel) (hb : s.buffer = A ++ B) (hA : A.length = s.out_index)
    (hB : 0 < B.length) (hout : s.out_index + 1 < 256) (hpos : 0 < s.out_index) :
    placeStep fill sentinel neg s c last
      = ⟨s.out_index + 1, s.out_index - (if neg then 1 else 0),
          ((if neg then A.dropLast ++ [45] else A) ++ [c]) ++ B.drop 1⟩ := by
  unfold placeStep
  rw [if_pos hm, if_neg hc, Nat.mod_eq_of_lt hout]
  cases neg with
  | false =>
    simp only [Bool.false_eq_true, if_false, Nat.sub_zero]
    rw [hb, set_append_at A B c s.out_index hA.symm hB]
  | true =>
    simp only [if_true]
    have h1 : (s.out_index + 255) % 256 = s.out_index - 1 := by omega
    rw [h1, hb, set_last_append A B 45 (s.out_index - 1) (by omega),
      set_append_at (A.dropLast ++ [45]) B c s.out_index (by simp; omega) hB]

theorem placeFold_search (fill sentinel : Nat) (neg : Bool) :
    ∀ (cs : List Nat) (s : Place) (A B : List Nat), cs ≠ [] → s.msd_index = sentinel →
      s.buffer = A ++ B → A.length = s.out_index → cs.length ≤ B.length →
      s.out_index + cs.length < 256 → 0 < s.out_index →
      (∀ j, s.out_index ≤ j + 1 → j < s.out_index + cs.length → j ≠ sentinel) →
      placeFold fill sentinel neg s cs =
        ⟨s.out_index + cs.length,
         s.out_index + (cs.length - (sig cs).length) - (if neg then 1 else 0),
         (if neg then
            (A ++ List.replicate (cs.length - (sig cs).length) fill).dropLast ++ [45]
          else A ++ List.replicate (cs.length - (sig cs).length) fill)
          ++ sig cs ++ B.drop cs.length⟩
  | [], _, _, _, h, _, _, _, _, _, _, _ => absurd rfl h
  | [c], s, A, B, _, hm, hb, hA, hlen, hout, hpos, _ => by
    simp only [List.length_singleton] at hlen hout
    rw [placeFold, placeFold, List.isEmpty_nil,
      placeStep_first fill sentinel neg s A B c true (by simp) hm hb hA (by omega) hout hpos]
    simp [sig]
  | c :: c' :: cs, s, A, B, _, hm, hb, hA, hlen, hout, hpos, hs => by
    simp only [List.length_cons] at hlen hout hs
    have hsl := sig_length_le (c' :: cs)
    simp only [List.length_cons] at hsl
    by_cases hc : c = 48
    · subst hc
      have ih := placeFold_search fill sentinel neg (c' :: cs)
        ⟨s.out_index + 1, sentinel, (A ++ [fill]) ++ B.drop 1⟩ (A ++ [fill]) (B.drop 1)
        (by simp) rfl rfl (by simp [hA])
        (by simp only [List.length_drop, List.length_cons]; omega)
        (by simp only [List.length_cons]; omega) (by simp only []; omega)
        (by
          intro j h1 h2
          simp only [List.length_cons] at h1 h2
          exact hs j (by omega) (by omega))
      rw [placeFold, List.isEmpty_cons,
        placeStep_zero fill sentinel neg s A B hm hb hA (by omega) (by omega), ih]
      have hz : cs.length + 1 + 1 - (sig (c' :: cs)).length
          = (cs.length + 1 - (sig (c' :: cs)).length) + 1 := by omega
      have hsig : sig (48 :: c' :: cs) = sig (c' :: cs) := by
        rw [sig]; simp
      simp only [List.length_cons, hsig, hz, List.replicate_succ, List.drop_drop,
        List.append_assoc, List.singleton_append, Place.mk.injEq]
      refine ⟨by omega, by omega, ?_⟩
      rw [Nat.add_comm 1 (cs.length + 1)]
    · have hsig : sig (c :: c' :: cs) = c :: c' :: cs := by
        rw [sig]; simp [hc]
      have hfound := placeFold_found fill sentinel neg (c' :: cs)
        ⟨s.out_index + 1, s.out_index - (if neg then 1 else 0),
          ((if neg then A.dropLast ++ [45] else A) ++ [c]) ++ B.drop 1⟩
        ((if neg then A.dropLast ++ [45] else A) ++ [c]) (B.drop 1)
        (by
          simp only []
          apply hs
          · split <;> omega
          · split <;> omega)
        rfl
        (by
          cases neg
          · simp [hA]
          · simp; omega)
        (by simp only [List.length_drop, List.length_cons]; omega)
        (by simp only [List.length_cons]; omega)
      rw [placeFold, List.isEmpty_cons,
        placeStep_first fill sentinel neg s A B c false (by simp [hc]) hm hb hA (by omega)
          (by omega) hpos, hfound]
      simp only [hsig, List.length_cons, Nat.sub_self, Nat.add_zero, List.replicate_zero,
        List.append_nil, List.drop_drop, List.append_assoc, List.singleton_append,
        List.cons_append, Place.mk.injEq, true_and]
      refine ⟨by omega, ?_⟩
      simp [Nat.add_comm]

/-! ## Digits by division -/

theorem padDigits_length (b : Nat) (f : Nat → Nat) : ∀ k v, (padDigits b f k v).length = k
  | 0, _ => rfl
  | k + 1, v => by simp [padDigits, padDigits_length b f k v]

theorem digit_mod_pow (b v i k : Nat) (hik : i < k) :
    (v % b ^ k) / b ^ i % b = v / b ^ i % b := by
  obtain ⟨j, rfl⟩ : ∃ j, k = i + (j + 1) := ⟨k - i - 1, by omega⟩
  rw [Nat.pow_add, Nat.mod_mul_right_div_self, Nat.pow_succ]
  exact Nat.mod_mod_of_dvd _ (Nat.dvd_mul_left b (b ^ j))

theorem padDigits_mod (b : Nat) (f : Nat → Nat) (k v : Nat) :
    ∀ j, j ≤ k → padDigits b f j (v % b ^ k) = padDigits b f j v
  | 0, _ => rfl
  | j + 1, h => by
    simp only [padDigits]
    rw [digit_mod_pow b v j k (by omega), padDigits_mod b f k v j (by omega)]

theorem padDigits_snoc (b : Nat) (f : Nat → Nat) :
    ∀ k v, padDigits b f (k + 1) v = padDigits b f k (v / b) ++ [f (v % b)]
  | 0, v => by simp [padDigits]
  | k + 1, v => by
    have ih := padDigits_snoc b f k v
    rw [padDigits, ih]
    simp only [padDigits, List.cons_append, List.cons.injEq, and_true]
    rw [Nat.div_div_eq_div_mul, ← Nat.pow_succ']

theorem padDigits_eq_digits (b : Nat) (hb : 1 < b) (f : Nat → Nat) :
    ∀ k v, (Nat.digits b v).length = k → padDigits b f k v = (Nat.digits b v).reverse.map f
  | 0, v, h => by
    have : Nat.digits b v = [] := List.length_eq_zero.mp h
    simp [padDigits, this]
  | k + 1, v, h => by
    have hv : v ≠ 0 := by
      rintro rfl
      simp at h
    rw [Nat.digits_eq_cons_digits_div hb hv] at h ⊢
    have ih := padDigits_eq_digits b hb f k (v / b) (by simpa using h)
    rw [padDigits_snoc, ih]
    simp

theorem digits_length_of_pow_le (b : Nat) (hb : 1 < b) (k v : Nat) (h1 : b ^ k ≤ v)
    (h2 : v < b ^ (k + 1)) : (Nat.digits b v).length = k + 1 := by
  have hv : v ≠ 0 := by
    have : 0 < b ^ k := Nat.pow_pos (by omega)
    omega
  rw [Nat.digits_len b v hb hv, Nat.log_eq_of_pow_le_of_lt_pow h1 h2]

theorem sig_padDigits (b : Nat) (hb : 1 < b) (f : Nat → Nat) (hf0 : f 0 = 48)
    (hf : ∀ d, d < b → d ≠ 0 → f d ≠ 48) :
    ∀ k v, v < b ^ (k + 1) →
      sig (padDigits b f (k + 1) v)
        = if v = 0 then [48] else (Nat.digits b v).reverse.map f
  | 0, v, h => by
    have hv : v < b := by simpa using h
    by_cases h0 : v = 0
    · subst h0
      simp [padDigits, sig, hf0]
    · rw [if_neg h0, Nat.digits_of_lt b v h0 hv]
      simp [padDigits, sig, Nat.mod_eq_of_lt hv]
  | k + 1, v, h => by
    have hlen := padDigits_length b f (k + 1) v
    have hbk : 0 < b ^ (k + 1) := Nat.pow_pos (by omega)
    have hd : v / b ^ (k + 1) < b := by
      rw [Nat.div_lt_iff_lt_mul hbk, ← Nat.pow_succ']
      exact h
    rw [padDigits]
    obtain ⟨c', cs, hcs⟩ : ∃ c' cs, padDigits b f (k + 1) v = c' :: cs := by
      cases hp : padDigits b f (k + 1) v with
      | nil => rw [hp] at hlen; simp at hlen
      | cons c' cs => exact ⟨c', cs, rfl⟩
    by_cases hlt : v < b ^ (k + 1)
    · have ih := sig_padDigits b hb f hf0 hf k v hlt
      rw [Nat.div_eq_of_lt hlt, Nat.zero_mod, hf0, hcs, sig, if_pos rfl, ← hcs, ih]
    · have hge : b ^ (k + 1) ≤ v := Nat.le_of_not_lt hlt
      have hv : v ≠ 0 := by omega
      have hdpos : v / b ^ (k + 1) ≠ 0 := by
        have := (Nat.le_div_iff_mul_le hbk).mpr (by simpa using hge : 1 * b ^ (k + 1) ≤ v)
        omega
      have hne : f (v / b ^ (k + 1) % b) ≠ 48 := by
        rw [Nat.mod_eq_of_lt hd]
        exact hf _ hd hdpos
      rw [hcs, sig, if_neg hne, ← hcs, if_neg hv,
        ← padDigits_eq_digits b hb f (k + 1 + 1) v (digits_length_of_pow_le b hb (k + 1) v hge h)]
      rfl

/-! ## The closing loop -/

theorem range_map_getD (l : List Nat) (a len : Nat) (h : a + len ≤ l.length) :
    (List.range len).map (fun i => l.getD (a + i) 0) = (l.drop a).take len := by
  apply List.ext_getElem
  · simp only [List.length_map, List.length_range, List.length_take, List.length_drop]
    omega
  · intro i h1 h2
    simp only [List.length_map, List.length_range] at h1
    simp only [List.getElem_map, List.getElem_range, List.getElem_take, List.getElem_drop]
    exact List.getD_eq_getElem _ _ (by omega)

theorem emit_eq (l : List Nat) (a len : Nat) (h : a + len ≤ l.length) :
    emit l a len = ((l.drop a).take len).map write_char := by
  rw [← range_map_getD l a len h]
  simp [emit]

theorem finish_eq (cap fill width : Nat) (body : List Nat) (hcap : cap < 256)
    (hb : body.length ≤ cap) (hw : width ≤ cap) (hfill : fill < 256)
    (hbody : ∀ c ∈ body, c < 256) :
    finish cap (List.replicate (cap - body.length) fill ++ body ++ [0]) (cap - body.length)
        width
      = List.replicate (max width body.length - body.length) fill ++ body := by
  have hsl : (cap + 256 - (cap - body.length)) % 256 = body.length := by omega
  have key : ∀ len, body.length ≤ len → len ≤ cap →
      emit (List.replicate (cap - body.length) fill ++ body ++ [0]) (cap - len) len
        = List.replicate (len - body.length) fill ++ body := by
    intro len h1 h2
    rw [emit_eq _ _ _ (by simp; omega)]
    have hsplit : List.replicate (cap - body.length) fill ++ body ++ [0]
        = List.replicate (cap - len) fill
            ++ ((List.replicate (len - body.length) fill ++ body) ++ [0]) := by
      have : cap - body.length = (cap - len) + (len - body.length) := by omega
      rw [this, List.replicate_add]
      simp only [List.append_assoc]
    rw [hsplit, List.drop_left' (by simp), List.take_left' (by simp; omega)]
    rw [List.map_append, List.map_replicate]
    have h32 : write_char fill = fill := Nat.mod_eq_of_lt hfill
    have hmap : body.map write_char = body := by
      conv_rhs => rw [← List.map_id body]
      apply List.map_congr_left
      intro c hc
      exact Nat.mod_eq_of_lt (hbody c hc)
    rw [h32, hmap]
  unfold finish
  simp only [hsl]
  by_cases hwb : width > body.length
  · rw [if_pos hwb]
    have h1 : (cap + 256 - width) % 256 = cap - width := by omega
    simp only [h1]
    rw [key width (by omega) hw, Nat.max_eq_left (by omega)]
  · rw [if_neg hwb]
    simp only []
    have := key body.length (Nat.le_refl _) hb
    rw [this, Nat.max_eq_right (by omega)]

/-! ## `write_dec` -/

theorem digitLoop_eq (p : Nat) (hp : 0 < p) :
    ∀ (n d value : Nat), value < (n + 1) * p → d + n < 256 →
      digitLoop n d value p = (d + value / p, value % p)
  | 0, d, value, hv, _ => by
    have h : value < p := by simpa using hv
    simp [digitLoop, Nat.div_eq_of_lt h, Nat.mod_eq_of_lt h]
  | n + 1, d, value, hv, hd => by
    unfold digitLoop
    by_cases h : value < p
    · simp [h, Nat.div_eq_of_lt h, Nat.mod_eq_of_lt h]
    · have hle : p ≤ value := Nat.le_of_not_lt h
      have hsub : value - p < (n + 1) * p := by
        have : (n + 1 + 1) * p = (n + 1) * p + p := by ring
        omega
      have h1 : value / p = (value - p) / p + 1 := by
        rw [Nat.div_eq value p, if_pos ⟨hp, hle⟩]
      have h2 : value % p = (value - p) % p := Nat.mod_eq_sub_mod hle
      rw [if_neg h, Nat.mod_eq_of_lt (by omega),
        digitLoop_eq p hp n (d + 1) (value - p) hsub (by omega), h1, h2]
      congr 1
      omega

theorem powers_eq : powers = descPow 10 := by
  simp [powers, descPow]

theorem decIter_place (neg : Bool) (s : DecState) (k : Nat) (hv : s.value < 10 ^ (k + 1)) :
    (decIter neg s (10 ^ k)).place
        = placeStep 32 0 neg s.place (48 + s.value / 10 ^ k % 10) (decide (k = 0))
      ∧ (k ≠ 0 → (decIter neg s (10 ^ k)).value = s.value % 10 ^ k) := by
  cases k with
  | zero =>
    have hv' : s.value < 10 := by simpa using hv
    have h1 : (48 + s.value) % 256 = 48 + s.value := by omega
    have h2 : s.value / 1 % 10 = s.value := by omega
    refine ⟨?_, fun h => absurd rfl h⟩
    by_cases hm : s.msd_index = 0 <;> cases neg <;>
      simp [decIter, placeStep, DecState.place, h1, Nat.mod_eq_of_lt hv', hm]
  | succ k =>
    have hp : 0 < 10 ^ (k + 1) := Nat.pow_pos (by omega)
    have hne : ((10 : Nat) ^ (k + 1) == 1) = false := by
      have : (10 : Nat) ^ (k + 1) = 10 ^ k * 10 := pow_succ 10 k
      have hk : 0 < 10 ^ k := Nat.pow_pos (by omega)
      simp only [beq_eq_false_iff_ne, ne_eq]
      omega
    have hlt : s.value < (9 + 1) * 10 ^ (k + 1) := by
      have : (10 : Nat) ^ (k + 1 + 1) = 10 * 10 ^ (k + 1) := pow_succ' 10 (k + 1)
      omega
    have hd : s.value / 10 ^ (k + 1) < 10 := by
      rw [Nat.div_lt_iff_lt_mul hp]
      have : (10 : Nat) ^ (k + 1 + 1) = 10 ^ (k + 1) * 10 := pow_succ 10 (k + 1)
      omega
    have hloop := digitLoop_eq (10 ^ (k + 1)) hp 9 48 s.value hlt (by omega)
    have hmod : s.value / 10 ^ (k + 1) % 10 = s.value / 10 ^ (k + 1) := Nat.mod_eq_of_lt hd
    constructor
    · by_cases hm : s.msd_index = 0 <;> cases neg <;>
        by_cases hz : s.value / 10 ^ (k + 1) = 0 <;>
        simp [decIter, placeStep, DecState.place, hne, hloop, hmod, hm, hz]
    · intro _
      by_cases hm : s.msd_index = 0 <;> cases neg <;>
        by_cases hz : s.value / 10 ^ (k + 1) = 0 <;>
        simp [decIter, hne, hloop, hm, hz]

theorem decFold_place (neg : Bool) : ∀ (k : Nat) (s : DecState), s.value < 10 ^ k →
    ((descPow k).foldl (decIter neg) s).place
      = placeFold 32 0 neg s.place (padDigits 10 (fun d => 48 + d) k s.value)
  | 0, _, _ => rfl
  | k + 1, s, hv => by
    obtain ⟨h1, h2⟩ := decIter_place neg s k hv
    rw [descPow, List.foldl_cons, padDigits, placeFold]
    cases k with
    | zero =>
      simp only [descPow, List.foldl_nil, padDigits, placeFold, List.isEmpty_nil]
      simpa using h1
    | succ k =>
      have hval := h2 (Nat.succ_ne_zero k)
      have hlt : (decIter neg s (10 ^ (k + 1))).value < 10 ^ (k + 1) := by
        rw [hval]
        exact Nat.mod_lt _ (Nat.pow_pos (by omega))
      rw [decFold_place neg (k + 1) _ hlt, h1, hval, padDigits_mod 10 _ (k + 1) s.value (k + 1)
        (Nat.le_refl _)]
      simp [padDigits]

theorem decimal_lt (v : Nat) : ∀ c ∈ decimal v, 48 ≤ c ∧ c ≤ 57 := by
  intro c hc
  unfold decimal at hc
  split at hc
  · simp at hc
    omega
  · simp only [List.mem_map, List.mem_reverse] at hc
    obtain ⟨d, hd, rfl⟩ := hc
    have := Nat.digits_lt_base (by omega : 1 < 10) hd
    omega

theorem decimal_length_pos (v : Nat) : 0 < (decimal v).length := by
  unfold decimal
  split
  · simp
  · rename_i h
    simp only [List.length_map, List.length_reverse]
    exact List.length_pos.mpr (Nat.digits_ne_nil_iff_ne_zero.mpr h)

theorem decimal_length_le (v : Nat) (hv : v < 10 ^ 10) : (decimal v).length ≤ 10 := by
  have h := sig_padDigits 10 (by omega) (fun d => 48 + d) rfl (by intro d _ h; simp [h]) 9 v hv
  have h2 := sig_length_le (padDigits 10 (fun d => 48 + d) (9 + 1) v)
  rw [padDigits_length] at h2
  unfold decimal
  rw [← h]
  exact h2

/-- The state in which the loop over the powers of ten leaves `write_dec`. -/
theorem decLoop_place (neg : Bool) (v : Nat) (hv : v < 10 ^ 10) :
    (decLoop neg v).place
      = ⟨31, 31 - ((if neg then [45] else []) ++ decimal v).length,
          List.replicate (31 - ((if neg then [45] else []) ++ decimal v).length) 32
            ++ ((if neg then [45] else []) ++ decimal v) ++ [0]⟩ := by
  have hsig : sig (padDigits 10 (fun d => 48 + d) (9 + 1) v) = decimal v :=
    sig_padDigits 10 (by omega) (fun d => 48 + d) rfl (by intro d _ h; simp [h]) 9 v hv
  have hle := decimal_length_le v hv
  have hpos := decimal_length_pos v
  have hfold := decFold_place neg 10 ⟨v, 21, 0, List.replicate 31 32 ++ [0]⟩ hv
  have hsearch := placeFold_search 32 0 neg (padDigits 10 (fun d => 48 + d) (9 + 1) v)
    ⟨21, 0, List.replicate 31 32 ++ [0]⟩ (List.replicate 21 32) (List.replicate 10 32 ++ [0])
    (by simp [padDigits]) rfl (by simp) (by simp) (by simp [padDigits_length])
    (by simp [padDigits_length]) (by simp) (by intro j h1 _; simp only [] at h1; omega)
  rw [decLoop, powers_eq, hfold]
  simp only [DecState.place]
  rw [hsearch, hsig, padDigits_length]
  simp only [List.append_replicate_replicate, Place.mk.injEq, true_and]
  cases neg with
  | false =>
    simp only [Bool.false_eq_true, if_false, List.nil_append, Nat.sub_zero]
    have h1 : 21 + (9 + 1 - (decimal v).length) = 31 - (decimal v).length := by omega
    rw [h1]
    simp
  | true =>
    simp only [if_true, List.singleton_append, List.length_cons, List.dropLast_replicate]
    have h1 : 21 + (9 + 1 - (decimal v).length) - 1 = 31 - ((decimal v).length + 1) := by omega
    rw [h1]
    simp

theorem decPlace_buffer (s : DecState) : s.place.buffer = s.buffer := rfl

theorem decPlace_msd_index (s : DecState) : s.place.msd_index = s.msd_index := rfl

theorem write_dec_unfold (value : Nat) (is_signed : Bool) (width : Nat) :
    write_dec value is_signed width
      = finish 31
          (decLoop (is_signed && (value &&& 0x80000000 != 0))
            (if (is_signed && (value &&& 0x80000000 != 0)) = true
              then ((4294967295 - value) + 1) % 4294967296 else value)).buffer
          (decLoop (is_signed && (value &&& 0x80000000 != 0))
            (if (is_signed && (value &&& 0x80000000 != 0)) = true
              then ((4294967295 - value) + 1) % 4294967296 else value)).msd_index
          (if width > 31 then 31 else width) := by
  simp only [write_dec, finish, emit]

theorem finish_decLoop (neg : Bool) (u width : Nat) (hu : u < 10 ^ 10) (hw : width ≤ 31) :
    finish 31 (decLoop neg u).buffer (decLoop neg u).msd_index width
      = List.replicate (max width ((if neg then [45] else []) ++ decimal u).length
            - ((if neg then [45] else []) ++ decimal u).length) 32
          ++ ((if neg then [45] else []) ++ decimal u) := by
  rw [← decPlace_buffer, ← decPlace_msd_index, decLoop_place neg u hu]
  simp only []
  have hle := decimal_length_le u hu
  apply finish_eq 31 32 width _ (by omega) _ hw (by omega)
  · intro c hc
    rw [List.mem_append] at hc
    rcases hc with hc | hc
    · cases neg <;> simp at hc
      omega
    · have := decimal_lt u c hc
      omega
  · cases neg <;> simp <;> omega

theorem sign_bit (v : Nat) : (v &&& 0x80000000 != 0) = v.testBit 31 := by
  have h : (0x80000000 : Nat) = 2 ^ 31 := by norm_num
  rw [h, Nat.and_two_pow]
  cases v.testBit 31 <;> simp

theorem testBit_31 (v : Nat) (hv : v < 4294967296) :
    v.testBit 31 = decide (2147483648 ≤ v) := by
  rw [Nat.testBit_to_div_mod]
  have h : (2 : Nat) ^ 31 = 2147483648 := by norm_num
  rw [h]
  congr 1
  apply propext
  omega

theorem write_dec_eq (v : Nat) (is_signed : Bool) (w : Nat) (hv : v < 4294967296)
    (hw : w ≤ 31) :
    write_dec v is_signed w
      = if (is_signed && v.testBit 31) = true then
          List.replicate (max w (1 + (decimal (4294967296 - v)).length)
            - (1 + (decimal (4294967296 - v)).length)) 32 ++ 45 :: decimal (4294967296 - v)
        else List.replicate (max w (decimal v).length - (decimal v).length) 32 ++ decimal v := by
  rw [write_dec_unfold, sign_bit, if_neg (by omega : ¬ w > 31)]
  by_cases hneg : (is_signed && v.testBit 31) = true
  · have hge : 2147483648 ≤ v := by
      have h := (Bool.and_eq_true _ _).mp hneg
      rw [testBit_31 v hv] at h
      simpa using h.2
    have hval : ((4294967295 - v) + 1) % 4294967296 = 4294967296 - v := by omega
    rw [hneg, if_pos rfl, if_pos rfl, hval, finish_decLoop true _ w (by omega) hw]
    simp [Nat.add_comm]
  · have hneg' : (is_signed && v.testBit 31) = false := by simpa using hneg
    rw [hneg', if_neg (by simp), if_neg (by simp), finish_decLoop false v w (by omega) hw]
    simp

theorem parseDigits_map (ds : List Nat) : ∀ acc, (∀ d ∈ ds, d < 10) →
    parseDigits (ds.map (fun d => 48 + d)) acc = some (ds.foldl (fun a d => a * 10 + d) acc) := by
  induction ds with
  | nil => intro acc _; rfl
  | cons d ds ih =>
    intro acc h
    have hd : d < 10 := h d (List.mem_cons_self _ _)
    simp only [List.map_cons, parseDigits, List.foldl_cons]
    rw [if_pos (by omega), ih _ (fun x hx => h x (List.mem_cons_of_mem _ hx))]
    congr 3
    omega

theorem foldl_reverse_ofDigits (l : List Nat) :
    l.reverse.foldl (fun a d => a * 10 + d) 0 = Nat.ofDigits 10 l := by
  induction l with
  | nil => rfl
  | cons d l ih =>
    rw [List.reverse_cons, List.foldl_append, ih, Nat.ofDigits_cons]
    simp only [List.foldl_cons, List.foldl_nil]
    omega

theorem parseDigits_decimal (v : Nat) : parseDigits (decimal v) 0 = some v := by
  unfold decimal
  split
  · rename_i h
    subst h
    rfl
  · rw [parseDigits_map _ 0 (by
      intro d hd
      exact Nat.digits_lt_base (by omega) (List.mem_reverse.mp hd)),
      foldl_reverse_ofDigits, Nat.ofDigits_digits]

theorem parseDec_padded (k v : Nat) : parseDec (List.replicate k 32 ++ decimal v) = some v := by
  have hpos := decimal_length_pos v
  cases hd : decimal v with
  | nil => rw [hd] at hpos; simp at hpos
  | cons c cs =>
    have hc := decimal_lt v c (by rw [hd]; exact List.mem_cons_self _ _)
    have hdrop : (List.replicate k 32 ++ c :: cs).dropWhile (fun c => c == 32) = c :: cs := by
      induction k with
      | zero =>
        simp only [List.replicate_zero, List.nil_append]
        rw [List.dropWhile_cons_of_neg]
        simp only [beq_iff_eq]
        omega
      | succ k ih =>
        rw [List.replicate_succ, List.cons_append, List.dropWhile_cons_of_pos (by simp)]
        exact ih
    have hp := parseDigits_decimal v
    rw [hd] at hp
    unfold parseDec
    rw [hdrop]
    exact hp

/-- Claim C1.  For every 32-bit value `v` and width `w` in 0..31, the unsigned
`write_dec(v, false, w)` emits exactly `max(w, n)` bytes, `n` being the number of decimal
digits of `v`: `max(w, n) - n` spaces followed by the decimal digits of `v`, so that
parsing the output as a decimal number gives back `v`; `v = 0, w = 0` emits `"0"` and
`v = 4294967295, w = 0` emits `"4294967295"`. -/
theorem write_dec_unsigned (v w : Nat) (hv : v < 4294967296) (hw : w ≤ 31) :
    (write_dec v false w).length = max w (decimal v).length
    ∧ write_dec v false w
        = List.replicate (max w (decimal v).length - (decimal v).length) 32 ++ decimal v
    ∧ parseDec (write_dec v false w) = some v
    ∧ write_dec 0 false 0 = str "0"
    ∧ write_dec 4294967295 false 0 = str "4294967295" := by
  have h := write_dec_eq v false w hv hw
  rw [Bool.false_and, if_neg (by simp)] at h
  refine ⟨?_, h, ?_, by decide, by decide⟩
  · rw [h, List.length_append, List.length_replicate]
    omega
  · rw [h]
    exact parseDec_padded _ v

theorem write_dec_unsigned_witness :
    (write_dec 42 false 5).length = max 5 (decimal 42).length
    ∧ write_dec 42 false 5
        = List.replicate (max 5 (decimal 42).length - (decimal 42).length) 32 ++ decimal 42
    ∧ parseDec (write_dec 42 false 5) = some 42
    ∧ write_dec 0 false 0 = str "0"
    ∧ write_dec 4294967295 false 0 = str "4294967295" :=
  write_dec_unsigned 42 5 (by decide) (by decide)

/-- Claim C2.  For every 32-bit value `v` and width `w` in 0..31, the signed
`write_dec(v, true, w)` renders `v` as a two's-complement number: with the top bit clear
the output is the unsigned output, with the top bit set it is `'-'` followed by the decimal
digits of `2^32 - v`, left-padded with spaces to `max(w, 1 + digit count)`; `0x80000000`
with `w = 0` emits `"-2147483648"`. -/
theorem write_dec_signed (v w : Nat) (hv : v < 4294967296) (hw : w ≤ 31) :
    (v.testBit 31 = false → write_dec v true w = write_dec v false w)
    ∧ (v.testBit 31 = true →
        write_dec v true w
          = List.replicate (max w (1 + (decimal (4294967296 - v)).length)
              - (1 + (decimal (4294967296 - v)).length)) 32
            ++ 45 :: decimal (4294967296 - v))
    ∧ write_dec 0x80000000 true 0 = str "-2147483648" := by
  refine ⟨?_, ?_, by decide⟩
  · intro h
    rw [write_dec_eq v true w hv hw, write_dec_eq v false w hv hw, h]
    simp
  · intro h
    rw [write_dec_eq v true w hv hw, h]
    simp

theorem write_dec_signed_witness :
    ((4294967254 : Nat).testBit 31 = false →
      write_dec 4294967254 true 5 = write_dec 4294967254 false 5)
    ∧ ((4294967254 : Nat).testBit 31 = true →
        write_dec 4294967254 true 5
          = List.replicate (max 5 (1 + (decimal (4294967296 - 4294967254)).length)
              - (1 + (decimal (4294967296 - 4294967254)).length)) 32
            ++ 45 :: decimal (4294967296 - 4294967254))
    ∧ write_dec 0x80000000 true 0 = str "-2147483648" :=
  write_dec_signed 4294967254 5 (by decide) (by decide)

/-! ## `write_hex` -/

theorem nybble_eq (v i : Nat) (hi : i ≤ 7) :
    (v >>> shift.getD i 0) &&& 0xF = v / 16 ^ (7 - i) % 16 := by
  have h : (0xF : Nat) = 2 ^ 4 - 1 := by norm_num
  rw [h, Nat.and_pow_two_sub_one_eq_mod, Nat.shiftRight_eq_div_pow]
  interval_cases i <;> simp [shift]

theorem hexIter_place (v fill off : Nat) (s : HexState) (i : Nat) (hi : i ≤ 7) :
    (hexIter v fill off s i).place
      = placeStep fill 255 false s.place (hexDigit off (v / 16 ^ (7 - i) % 16))
          (decide (i = 7)) := by
  have hn := nybble_eq v i hi
  simp only [hexIter, hn]
  rw [show (if v / 16 ^ (7 - i) % 16 < 10 then v / 16 ^ (7 - i) % 16 + 48
        else v / 16 ^ (7 - i) % 16 + off) = hexDigit off (v / 16 ^ (7 - i) % 16) from rfl]
  by_cases hm : s.msd_index = 255 <;> by_cases h7 : i = 7 <;>
    by_cases hz : hexDigit off (v / 16 ^ (7 - i) % 16) = 48 <;>
    simp [placeStep, HexState.place, hm, h7, hz]

theorem hexFold_place (v fill off : Nat) (s : HexState) :
    ((List.range 8).foldl (hexIter v fill off) s).place
      = placeFold fill 255 false s.place (padDigits 16 (hexDigit off) 8 v) := by
  have hr : List.range 8 = [0, 1, 2, 3, 4, 5, 6, 7] := by decide
  simp only [hr, List.foldl_cons, List.foldl_nil, padDigits, placeFold, List.isEmpty_cons,
    List.isEmpty_nil]
  rw [hexIter_place v fill off _ 7 (by decide), hexIter_place v fill off _ 6 (by decide),
    hexIter_place v fill off _ 5 (by decide), hexIter_place v fill off _ 4 (by decide),
    hexIter_place v fill off _ 3 (by decide), hexIter_place v fill off _ 2 (by decide),
    hexIter_place v fill off _ 1 (by decide), hexIter_place v fill off _ 0 (by decide)]
  simp

theorem hexDigit_eq_hexChar (uppercase : Bool) (d : Nat) :
    hexDigit (if uppercase then 55 else 87) d = hexChar uppercase d := by
  have h0 : '0'.toNat = 48 := by decide
  have hA : 'A'.toNat = 65 := by decide
  have ha : 'a'.toNat = 97 := by decide
  unfold hexDigit hexChar
  rw [h0, hA, ha]
  cases uppercase <;> simp <;> split <;> omega

theorem hexadecimal_lt (uppercase : Bool) (v : Nat) : ∀ c ∈ hexadecimal uppercase v, c < 256 := by
  intro c hc
  unfold hexadecimal at hc
  split at hc
  · simp at hc
    omega
  · simp only [List.mem_map, List.mem_reverse] at hc
    obtain ⟨d, hd, rfl⟩ := hc
    have := Nat.digits_lt_base (by omega : 1 < 16) hd
    rw [← hexDigit_eq_hexChar]
    unfold hexDigit
    cases uppercase <;> simp <;> split <;> omega

theorem sig_hex (uppercase : Bool) (v : Nat) (hv : v < 16 ^ 8) :
    sig (padDigits 16 (hexDigit (if uppercase then 55 else 87)) (7 + 1) v)
      = hexadecimal uppercase v := by
  rw [sig_padDigits 16 (by omega) _ (by simp [hexDigit]) _ 7 v hv]
  · unfold hexadecimal
    congr 2
    funext d
    exact hexDigit_eq_hexChar uppercase d
  · intro d _ hd
    unfold hexDigit
    cases uppercase <;> simp <;> split <;> omega

theorem hexadecimal_length_pos (uppercase : Bool) (v : Nat) :
    0 < (hexadecimal uppercase v).length := by
  unfold hexadecimal
  split
  · simp
  · rename_i h
    simp only [List.length_map, List.length_reverse]
    exact List.length_pos.mpr (Nat.digits_ne_nil_iff_ne_zero.mpr h)

theorem hexadecimal_length_le (uppercase : Bool) (v : Nat) (hv : v < 16 ^ 8) :
    (hexadecimal uppercase v).length ≤ 8 := by
  have h2 := sig_length_le (padDigits 16 (hexDigit (if uppercase then 55 else 87)) (7 + 1) v)
  rw [padDigits_length, sig_hex uppercase v hv] at h2
  exact h2

/-- The state in which the loop over the nybbles leaves `write_hex`. -/
theorem hexLoop_place (v fill : Nat) (uppercase : Bool) (hv : v < 16 ^ 8) :
    (hexLoop v fill (if uppercase then 55 else 87)).place
      = ⟨15, 15 - (hexadecimal uppercase v).length,
          List.replicate (15 - (hexadecimal uppercase v).length) fill
            ++ hexadecimal uppercase v ++ [0]⟩ := by
  have hle := hexadecimal_length_le uppercase v hv
  have hpos := hexadecimal_length_pos uppercase v
  have hsearch := placeFold_search fill 255 false
    (padDigits 16 (hexDigit (if uppercase then 55 else 87)) (7 + 1) v)
    ⟨7, 255, List.replicate 15 fill ++ [0]⟩ (List.replicate 7 fill)
    (List.replicate 8 fill ++ [0])
    (by simp [padDigits]) rfl (by simp) (by simp) (by simp [padDigits_length])
    (by simp [padDigits_length]) (by simp)
    (by intro j _ h2; simp only [padDigits_length] at h2; omega)
  rw [hexLoop, hexFold_place]
  simp only [HexState.place]
  rw [hsearch, sig_hex uppercase v hv, padDigits_length]
  simp only [List.append_replicate_replicate, Place.mk.injEq, true_and, Bool.false_eq_true,
    if_false, Nat.sub_zero]
  have h1 : 7 + (7 + 1 - (hexadecimal uppercase v).length)
      = 15 - (hexadecimal uppercase v).length := by omega
  rw [h1]
  simp

theorem hexPlace_buffer (s : HexState) : s.place.buffer = s.buffer := rfl

theorem hexPlace_msd_index (s : HexState) : s.place.msd_index = s.msd_index := rfl

theorem write_hex_unfold (value : Nat) (zero_fill uppercase : Bool) (width : Nat) :
    write_hex value zero_fill uppercase width
      = finish 15
          (hexLoop value (if zero_fill then 48 else 32) (if uppercase then 55 else 87)).buffer
          (hexLoop value (if zero_fill then 48 else 32)
            (if uppercase then 55 else 87)).msd_index
          (if width > 15 then 15 else width) := by
  simp only [write_hex, finish, emit]

theorem write_hex_eq (v : Nat) (zero_fill uppercase : Bool) (w : Nat) (hv : v < 4294967296)
    (hw : w ≤ 15) :
    write_hex v zero_fill uppercase w
      = List.replicate (max w (hexadecimal uppercase v).length
            - (hexadecimal uppercase v).length) (if zero_fill then 48 else 32)
          ++ hexadecimal uppercase v := by
  have hv' : v < 16 ^ 8 := by
    have : (16 : Nat) ^ 8 = 4294967296 := by norm_num
    omega
  rw [write_hex_unfold, if_neg (by omega : ¬ w > 15), ← hexPlace_buffer,
    ← hexPlace_msd_index, hexLoop_place v _ uppercase hv']
  simp only []
  have hle := hexadecimal_length_le uppercase v hv'
  exact finish_eq 15 _ w _ (by omega) (by omega) hw (by cases zero_fill <;> simp)
    (hexadecimal_lt uppercase v)

/-- Claim C3.  For every 32-bit value `v`, both values of `zero_fill` and `uppercase`, and
every width `w` in 0..15, `write_hex(v, zero_fill, uppercase, w)` emits exactly `max(w, n)`
bytes, `n` being the number of hexadecimal digits of `v` without leading zeros: the last `n`
bytes are the hex digits of `v` (`'A'..'F'` when `uppercase`, else `'a'..'f'`), all bytes
before them are `'0'` when `zero_fill` and `' '` otherwise; `write_hex(0xAB, false, true, 4)`
emits `"  AB"` and `write_hex(0xAB, true, false, 4)` emits `"00ab"`. -/
theorem write_hex_field (v : Nat) (zero_fill uppercase : Bool) (w : Nat)
    (hv : v < 4294967296) (hw : w ≤ 15) :
    (write_hex v zero_fill uppercase w).length = max w (hexadecimal uppercase v).length
    ∧ write_hex v zero_fill uppercase w
        = List.replicate (max w (hexadecimal uppercase v).length
            - (hexadecimal uppercase v).length) (if zero_fill then '0'.toNat else ' '.toNat)
          ++ hexadecimal uppercase v
    ∧ write_hex 0xAB false true 4 = str "  AB"
    ∧ write_hex 0xAB true false 4 = str "00ab" := by
  have h := write_hex_eq v zero_fill uppercase w hv hw
  have h0 : '0'.toNat = 48 := by decide
  have hs : ' '.toNat = 32 := by decide
  rw [h0, hs]
  refine ⟨?_, h, by decide, by decide⟩
  rw [h, List.length_append, List.length_replicate]
  omega

theorem write_hex_field_witness :
    (write_hex 0xAB true false 4).length = max 4 (hexadecimal false 0xAB).length
    ∧ write_hex 0xAB true false 4
        = List.replicate (max 4 (hexadecimal false 0xAB).length
            - (hexadecimal false 0xAB).length) (if true then '0'.toNat else ' '.toNat)
          ++ hexadecimal false 0xAB
    ∧ write_hex 0xAB false true 4 = str "  AB"
    ∧ write_hex 0xAB true false 4 = str "00ab" :=
  write_hex_field 0xAB true false 4 (by decide) (by decide)

/-! ## The format scanner -/

theorem getD_of_drop_nil (fmt : List Nat) (pos : Nat) (h : fmt.drop pos = []) :
    fmt.getD pos 0 = 0 :=
  List.getD_eq_default _ _ (List.drop_eq_nil_iff.mp h)

theorem getD_of_drop_cons (fmt : List Nat) (pos c : Nat) (l : List Nat)
    (h : fmt.drop pos = c :: l) : fmt.getD pos 0 = c ∧ fmt.drop (pos + 1) = l := by
  constructor
  · have h1 : (fmt.drop pos)[0]? = fmt[pos + 0]? := List.getElem?_drop fmt pos 0
    rw [h] at h1
    simp only [List.getElem?_cons_zero, Nat.add_zero] at h1
    rw [List.getD_eq_getElem?_getD, ← h1]
    rfl
  · have h2 : fmt.drop (pos + 1) = (fmt.drop pos).drop 1 := by
      rw [List.drop_drop, Nat.add_comm]
    rw [h2, h]
    rfl

/-- From an offset behind which the format holds no `'%'`, the main loop copies the
characters up to the first NUL or to the end of its iteration budget, and reads no value. -/
theorem printLoop_literal (fmt v : List Nat) :
    ∀ (n pos vi : Nat), (∀ c ∈ fmt.drop pos, c ≠ 37 ∧ c < 256) →
      printLoop fmt v n pos vi
        = ((((fmt.drop pos).take n).takeWhile (fun c => c != 0)).flatMap crlf, [])
  | 0, _, _, _ => by simp [printLoop]
  | n + 1, pos, vi, h => by
    cases hd : fmt.drop pos with
    | nil =>
      have hc := getD_of_drop_nil fmt pos hd
      simp [printLoop, printIter, hc, -List.getD_eq_getElem?_getD]
    | cons c l =>
      obtain ⟨hc, hl⟩ := getD_of_drop_cons fmt pos c l hd
      have hcl : c ≠ 37 ∧ c < 256 := h c (by rw [hd]; exact List.mem_cons_self _ _)
      have ih := printLoop_literal fmt v n (pos + 1) vi (by
        intro x hx
        rw [hl] at hx
        exact h x (by rw [hd]; exact List.mem_cons_of_mem _ hx))
      rw [hl] at ih
      by_cases h0 : c = 0
      · simp [printLoop, printIter, hc, h0, -List.getD_eq_getElem?_getD]
      · by_cases h10 : c = 10
        · simp [printLoop, printIter, hc, h10, ih, crlf, write_char, -List.getD_eq_getElem?_getD]
        · simp [printLoop, printIter, hc, h0, h10, hcl.1, ih, crlf, write_char,
            Nat.mod_eq_of_lt hcl.2, -List.getD_eq_getElem?_getD]

/-- Claim C6.  For every format string that holds no `'%'`, `print` emits the characters
before the first NUL (or the first 128 characters when no NUL is among them) unchanged and
in order, except that each `'\n'` becomes `'\r' '\n'`; the four values play no part. -/
theorem print_literal (fmt : List Nat) (v0 v1 v2 v3 : Nat) (hpct : 37 ∉ fmt)
    (hbyte : ∀ c ∈ fmt, c < 256) :
    print fmt v0 v1 v2 v3 = ((fmt.take 128).takeWhile (fun c => c != 0)).flatMap crlf := by
  rw [print, printLoop_literal fmt _ 128 0 0 (by
    intro c hc
    rw [List.drop_zero] at hc
    exact ⟨fun h => hpct (h ▸ hc), hbyte c hc⟩)]
  rfl

theorem print_literal_witness :
    print (str "a\nb") 1 2 3 4
      = (((str "a\nb").take 128).takeWhile (fun c => c != 0)).flatMap crlf :=
  print_literal (str "a\nb") 1 2 3 4 (by decide) (by decide)

/-- Claim C7.  The sequence `"%%"` emits exactly one `'%'` byte and consumes no value
argument: the pass of the main loop that meets it writes `'%'`, reads no value, and the scan
goes on two characters further with `value_index` unchanged, so that the conversion after a
`"%%"` formats the value it would format without it (`"%%%u"` prints `'%'` and then what
`"%u"` prints).  `print("%%d")` emits `"%d"` and `print("100%% done")` emits `"100% done"`,
whatever the four values are. -/
theorem print_percent_percent (fmt v : List Nat) (n pos vi : Nat)
    (h1 : fmt.getD pos 0 = 37) (h2 : fmt.getD (pos + 1) 0 = 37) :
    printIter fmt v pos vi = ⟨[37], [], pos + 2, vi, true⟩
    ∧ (printLoop fmt v (n + 1) pos vi).1 = 37 :: (printLoop fmt v n (pos + 2) vi).1
    ∧ (printLoop fmt v (n + 1) pos vi).2 = (printLoop fmt v n (pos + 2) vi).2
    ∧ (∀ v0 v1 v2 v3, print (str "%%%u") v0 v1 v2 v3 = 37 :: print (str "%u") v0 v1 v2 v3)
    ∧ (∀ v0 v1 v2 v3, print (str "%%d") v0 v1 v2 v3 = str "%d")
    ∧ (∀ v0 v1 v2 v3, print (str "100%% done") v0 v1 v2 v3 = str "100% done") := by
  have hi : printIter fmt v pos vi = ⟨[37], [], pos + 2, vi, true⟩ := by
    simp [printIter, h1, h2, write_char, -List.getD_eq_getElem?_getD]
  refine ⟨hi, ?_, ?_, ?_, ?_, ?_⟩
  · rw [printLoop, hi]
    simp
  · rw [printLoop, hi]
    simp
  · intro v0 v1 v2 v3
    simp [print, printLoop, printIter, widthLoop, bump, str, write_char]
  · intro v0 v1 v2 v3
    simp [print, printLoop, printIter, str, write_char]
  · intro v0 v1 v2 v3
    simp [print, printLoop, printIter, str, write_char]

theorem print_percent_percent_witness :
    printIter (str "a%%%u") [7, 8, 9, 10] 1 0 = ⟨[37], [], 1 + 2, 0, true⟩
    ∧ (printLoop (str "a%%%u") [7, 8, 9, 10] (126 + 1) 1 0).1
        = 37 :: (printLoop (str "a%%%u") [7, 8, 9, 10] 126 (1 + 2) 0).1
    ∧ (printLoop (str "a%%%u") [7, 8, 9, 10] (126 + 1) 1 0).2
        = (printLoop (str "a%%%u") [7, 8, 9, 10] 126 (1 + 2) 0).2
    ∧ (∀ v0 v1 v2 v3, print (str "%%%u") v0 v1 v2 v3 = 37 :: print (str "%u") v0 v1 v2 v3)
    ∧ (∀ v0 v1 v2 v3, print (str "%%d") v0 v1 v2 v3 = str "%d")
    ∧ (∀ v0 v1 v2 v3, print (str "100%% done") v0 v1 v2 v3 = str "100% done") :=
  print_percent_percent (str "a%%%u") [7, 8, 9, 10] 126 1 0 (by decide) (by decide)

/-- Claim C4, evaluated on the code.  `print("val=%05d\n", 42)` emits `"val=   42\r\n"`:
the decimal field is padded with spaces although the width prefix begins with `'0'`. -/
theorem print_zero_prefix_decimal :
    print (str "val=%05d\n") 42 0 0 0 = str "val=   42\r\n"
    ∧ print (str "val=%05d\n") 42 0 0 0 ≠ str "val=00042\r\n" := by
  decide

/-- Claim C5, evaluated on the code.  Two formats that agree on their first 128 bytes
(64 times `"%%"`) and differ at index 128 give different outputs: the byte at index 128 is
read and emitted. -/
theorem print_reads_past_128 :
    (∀ i, i < 128 →
      ((List.replicate 64 [37, 37]).flatten ++ [65]).getD i 0
        = ((List.replicate 64 [37, 37]).flatten ++ [66]).getD i 0)
    ∧ print ((List.replicate 64 [37, 37]).flatten ++ [65]) 0 0 0 0
        = List.replicate 64 37 ++ [65]
    ∧ print ((List.replicate 64 [37, 37]).flatten ++ [66]) 0 0 0 0
        = List.replicate 64 37 ++ [66]
    ∧ print ((List.replicate 64 [37, 37]).flatten ++ [65]) 0 0 0 0
        ≠ print ((List.replicate 64 [37, 37]).flatten ++ [66]) 0 0 0 0 := by
  decide

/-- Claim C10, evaluated on the code.  `print("%256u", 0)` emits the single byte `"0"`,
not a field of `max(min(256, 31), 1) = 31` bytes: the width is accumulated in a `uint8_t`
and `256` wraps to `0`. -/
theorem print_width_wraps :
    print (str "%256u") 0 0 0 0 = str "0"
    ∧ (print (str "%256u") 0 0 0 0).length ≠ max (min 256 31) (decimal 0).length
    ∧ print (str "%256x") 0 0 0 0 = str "0"
    ∧ (print (str "%256x") 0 0 0 0).length ≠ max (min 256 15) (hexadecimal false 0).length := by
  refine ⟨by decide, ?_, by decide, ?_⟩
  · rw [show print (str "%256u") 0 0 0 0 = str "0" by decide]
    simp [decimal, str]
  · rw [show print (str "%256x") 0 0 0 0 = str "0" by decide]
    simp [hexadecimal, str]

theorem literal_tail (tail : List Nat) (n : Nat) (hlen : tail.length ≤ n)
    (ht : ∀ c ∈ tail, c ≠ 37 ∧ c ≠ 10 ∧ c ≠ 0 ∧ c < 256) :
    ((tail.take n).takeWhile (fun c => c != 0)).flatMap crlf = tail := by
  rw [List.take_of_length_le hlen, List.takeWhile_eq_self_iff.mpr (by
    intro c hc
    simpa using (ht c hc).2.2.1)]
  induction tail with
  | nil => rfl
  | cons c l ih =>
    have hc := (ht c (List.mem_cons_self _ _)).2.1
    rw [List.flatMap_cons, ih (by simp at hlen; omega)
      (fun x hx => ht x (List.mem_cons_of_mem _ hx))]
    simp [crlf, hc]

theorem printLoop_conv_tail (fmt v E R tail : List Nat) (n : Nat)
    (hi : printIter fmt v 0 0 = ⟨E, R, 2, 1, true⟩) (hd : fmt.drop 2 = tail)
    (hlen : tail.length ≤ n) (ht : ∀ c ∈ tail, c ≠ 37 ∧ c ≠ 10 ∧ c ≠ 0 ∧ c < 256) :
    (printLoop fmt v (n + 1) 0 0).1 = E ++ tail := by
  rw [printLoop, hi]
  simp only [if_true]
  rw [printLoop_literal fmt v n 2 1 (by
    intro c hc
    rw [hd] at hc
    exact ⟨(ht c hc).1, (ht c hc).2.2.2⟩), hd, literal_tail tail n hlen ht]

theorem write_dec_signed_zero (v : Nat) (hv : v < 4294967296) :
    write_dec v true 0 = signedDecimal v := by
  rw [write_dec_eq v true 0 hv (by omega), signedDecimal]
  cases v.testBit 31 <;> simp

theorem write_dec_unsigned_zero (v : Nat) (hv : v < 4294967296) :
    write_dec v false 0 = decimal v := by
  rw [write_dec_eq v false 0 hv (by omega)]
  simp

/-- Claim C8.  For every value `v0` and every literal tail (no `'%'`, no `'\n'`, no NUL,
the whole format within 128 characters), `print("%d" ++ tail, v0)` emits the signed decimal
rendering of `v0` without any padding, followed by the tail unchanged; the same holds for
`"%i"`, and for `"%u"` with the unsigned rendering.  `print("%d apples", 5)` emits
`"5 apples"`. -/
theorem print_decimal_tail (v0 v1 v2 v3 : Nat) (tail : List Nat) (hv : v0 < 4294967296)
    (hlen : (str "%d" ++ tail).length ≤ 128)
    (ht : ∀ c ∈ tail, c ≠ 37 ∧ c ≠ 10 ∧ c ≠ 0 ∧ c < 256) :
    print (str "%d" ++ tail) v0 v1 v2 v3 = signedDecimal v0 ++ tail
    ∧ print (str "%i" ++ tail) v0 v1 v2 v3 = signedDecimal v0 ++ tail
    ∧ print (str "%u" ++ tail) v0 v1 v2 v3 = decimal v0 ++ tail
    ∧ print (str "%d apples") 5 0 0 0 = str "5 apples" := by
  have hd : str "%d" = [37, 100] := by decide
  have hi : str "%i" = [37, 105] := by decide
  have hu : str "%u" = [37, 117] := by decide
  have hl : tail.length ≤ 127 := by
    rw [hd] at hlen
    simp only [List.length_append, List.length_cons, List.length_nil] at hlen
    omega
  refine ⟨?_, ?_, ?_, by decide⟩
  · rw [hd, print, printLoop_conv_tail ([37, 100] ++ tail) _ (write_dec v0 true 0) [0] tail 127
      (by simp [printIter, widthLoop, bump]) (by rfl) hl ht, write_dec_signed_zero v0 hv]
  · rw [hi, print, printLoop_conv_tail ([37, 105] ++ tail) _ (write_dec v0 true 0) [0] tail 127
      (by simp [printIter, widthLoop, bump]) (by rfl) hl ht, write_dec_signed_zero v0 hv]
  · rw [hu, print, printLoop_conv_tail ([37, 117] ++ tail) _ (write_dec v0 false 0) [0] tail 127
      (by simp [printIter, widthLoop, bump]) (by rfl) hl ht, write_dec_unsigned_zero v0 hv]

theorem print_decimal_tail_witness :
    print (str "%d" ++ str " apples") 4294967291 0 0 0
        = signedDecimal 4294967291 ++ str " apples"
    ∧ print (str "%i" ++ str " apples") 4294967291 0 0 0
        = signedDecimal 4294967291 ++ str " apples"
    ∧ print (str "%u" ++ str " apples") 4294967291 0 0 0
        = decimal 4294967291 ++ str " apples"
    ∧ print (str "%d apples") 5 0 0 0 = str "5 apples" :=
  print_decimal_tail 4294967291 0 0 0 (str " apples") (by decide) (by decide) (by decide)

theorem pred_ite {α : Type} (P : α → Prop) (c : Prop) [Decidable c] (a b : α)
    (ha : c → P a) (hb : ¬ c → P b) : P (if c then a else b) := by
  by_cases h : c
  · rw [if_pos h]; exact ha h
  · rw [if_neg h]; exact hb h

/-- Every pass of the main loop either reads no value and leaves `value_index` alone, or
reads exactly `v[value_index]` and bumps `value_index`. -/
theorem printIter_cases (fmt v : List Nat) (pos vi : Nat) (hvi : vi ≤ 3) (P : Iter → Prop)
    (h1 : ∀ E p g, P ⟨E, [], p, vi, g⟩) (h2 : ∀ E p g, P ⟨E, [vi], p, bump vi, g⟩) :
    P (printIter fmt v pos vi) := by
  have hc : (if vi > 3 then 3 else vi) = vi := by
    rw [if_neg (by omega)]
  unfold printIter
  rw [hc]
  dsimp only
  repeat' first
    | (refine pred_ite P _ _ _ ?_ ?_ <;> intro _)
    | apply h1
    | apply h2

theorem printIter_reads (fmt v : List Nat) (pos vi : Nat) (hvi : vi ≤ 3) :
    ((printIter fmt v pos vi).reads = [] ∧ (printIter fmt v pos vi).value_index = vi)
    ∨ ((printIter fmt v pos vi).reads = [vi]
        ∧ (printIter fmt v pos vi).value_index = min (vi + 1) 3) := by
  have hb : bump vi = min (vi + 1) 3 := by
    unfold bump
    simp only []
    split <;> omega
  apply printIter_cases fmt v pos vi hvi
    (fun r => (r.reads = [] ∧ r.value_index = vi)
      ∨ (r.reads = [vi] ∧ r.value_index = min (vi + 1) 3))
  · intro E p g
    exact Or.inl ⟨rfl, rfl⟩
  · intro E p g
    exact Or.inr ⟨rfl, hb⟩

theorem printLoop_reads (fmt v : List Nat) :
    ∀ (n pos vi k : Nat), vi ≤ 3 → k < (printLoop fmt v n pos vi).2.length →
      (printLoop fmt v n pos vi).2[k]? = some (min (vi + k) 3)
  | 0, _, _, k, _, hk => by simp [printLoop] at hk
  | n + 1, pos, vi, k, hvi, hk => by
    rw [printLoop] at hk ⊢
    rcases printIter_reads fmt v pos vi hvi with ⟨hr, hv⟩ | ⟨hr, hv⟩
    · by_cases hg : (printIter fmt v pos vi).goes_on = true
      · simp only [hg, if_true, hr, List.nil_append, hv] at hk ⊢
        exact printLoop_reads fmt v n _ vi k hvi hk
      · simp [hg, hr] at hk
    · by_cases hg : (printIter fmt v pos vi).goes_on = true
      · simp only [hg, if_true, hr, List.singleton_append, hv] at hk ⊢
        cases k with
        | zero => simp; omega
        | succ k =>
          simp only [List.length_cons, Nat.add_lt_add_iff_right] at hk
          rw [List.getElem?_cons_succ,
            printLoop_reads fmt v n _ (min (vi + 1) 3) k (by omega) hk]
          congr 1
          omega
      · simp only [hg, Bool.false_eq_true, if_false, hr, List.length_singleton] at hk ⊢
        have : k = 0 := by omega
        subst this
        simp
        omega

/-! ## `read_byte` and the malformed or unusual specifiers -/

/-- Claim C14.  `read_byte(c, false)` on an empty receive FIFO returns `false` at once and
leaves `*c` and the FIFO unchanged; on a non-empty FIFO it returns `true`, stores the oldest
byte in `*c` and removes exactly that byte. -/
theorem read_byte_nonblocking (c b : Nat) (rest : List Nat) :
    read_byte c false [] = some (false, c, [])
    ∧ read_byte c false (b :: rest) = some (true, b, rest) :=
  ⟨rfl, rfl⟩

theorem getD_drop_add (fmt : List Nat) (pos k : Nat) :
    fmt.getD (pos + k) 0 = (fmt.drop pos).getD k 0 := by
  rw [List.getD_eq_getElem?_getD, List.getD_eq_getElem?_getD, List.getElem?_drop]

theorem drop_add_of_drop (fmt : List Nat) (pos : Nat) (pre rest : List Nat)
    (h : fmt.drop pos = pre ++ rest) : fmt.drop (pos + pre.length) = rest := by
  rw [← List.drop_drop, h, List.drop_left]

theorem widthLoop_digits (fmt : List Nat) :
    ∀ (digits : List Nat) (n w p : Nat) (rest : List Nat), fmt.drop p = digits ++ rest →
      (∀ d ∈ digits, 48 ≤ d ∧ d ≤ 57) → digits.length ≤ n →
      (digits.length < n → ¬ (48 ≤ rest.headD 0 ∧ rest.headD 0 ≤ 57)) →
      (widthLoop fmt n w p).2 = p + digits.length
  | [], 0, _, _, _, _, _, _, _ => rfl
  | [], n + 1, w, p, rest, h, _, _, hr => by
    have hc : fmt.getD p 0 = rest.headD 0 := by
      have := getD_drop_add fmt p 0
      rw [Nat.add_zero, h, List.nil_append] at this
      rw [this]
      cases rest <;> rfl
    have hnd := hr (by simp)
    rw [← hc] at hnd
    unfold widthLoop
    simp only []
    rw [if_pos (by
      simp only [Bool.or_eq_true, decide_eq_true_eq]
      omega)]
    rfl
  | d :: ds, 0, _, _, _, _, _, hl, _ => by simp at hl
  | d :: ds, n + 1, w, p, rest, h, hd, hl, hr => by
    obtain ⟨hc, hdrop⟩ := getD_of_drop_cons fmt p d (ds ++ rest) (by simpa using h)
    have hdig := hd d (List.mem_cons_self _ _)
    unfold widthLoop
    simp only []
    rw [if_neg (by
      simp only [Bool.or_eq_true, decide_eq_true_eq, hc]
      omega)]
    rw [widthLoop_digits fmt ds n _ (p + 1) rest hdrop
      (fun x hx => hd x (List.mem_cons_of_mem _ hx))
      (by simp only [List.length_cons] at hl; omega)
      (fun hlt => hr (by simp only [List.length_cons]; omega))]
    simp only [List.length_cons]
    omega

/-- The facts on the format that a pass of the main loop uses when it meets `'%'`, up to
three width digits and a specifier. -/
theorem specifier_facts (fmt : List Nat) (pos : Nat) (digits rest : List Nat) (spec : Nat)
    (h : fmt.drop pos = 37 :: (digits ++ spec :: rest))
    (hd : ∀ d ∈ digits, 48 ≤ d ∧ d ≤ 57) (hl : digits.length ≤ 3)
    (hsd : digits.length < 3 → ¬ (48 ≤ spec ∧ spec ≤ 57))
    (hs0 : spec ≠ 0) (hs37 : digits = [] → spec ≠ 37) :
    fmt.getD pos 0 = 37 ∧ fmt.getD (pos + 1) 0 ≠ 37 ∧ fmt.getD (pos + 1) 0 ≠ 0
    ∧ (widthLoop fmt 3 0 (pos + 1)).2 = pos + 1 + digits.length
    ∧ fmt.getD (pos + 1 + digits.length) 0 = spec := by
  obtain ⟨h1, hdrop⟩ := getD_of_drop_cons fmt pos 37 (digits ++ spec :: rest) h
  have hw := widthLoop_digits fmt digits 3 0 (pos + 1) (spec :: rest) hdrop hd hl hsd
  have hspec : fmt.getD (pos + 1 + digits.length) 0 = spec := by
    rw [getD_drop_add, hdrop, List.getD_eq_getElem?_getD, List.getElem?_append_right (by omega)]
    simp
  refine ⟨h1, ?_, ?_, hw, hspec⟩
  · cases digits with
    | nil =>
      have h37 := hs37 rfl
      have hsp : fmt.getD (pos + 1) 0 = spec := hspec
      rw [hsp]
      exact h37
    | cons d ds =>
      obtain ⟨hc, _⟩ := getD_of_drop_cons fmt (pos + 1) d (ds ++ spec :: rest)
        (by simpa using hdrop)
      have := hd d (List.mem_cons_self _ _)
      omega
  · cases digits with
    | nil =>
      have hsp : fmt.getD (pos + 1) 0 = spec := hspec
      rw [hsp]
      exact hs0
    | cons d ds =>
      obtain ⟨hc, _⟩ := getD_of_drop_cons fmt (pos + 1) d (ds ++ spec :: rest)
        (by simpa using hdrop)
      have := hd d (List.mem_cons_self _ _)
      omega

theorem printIter_unknown (fmt v : List Nat) (pos vi : Nat) (digits rest : List Nat)
    (spec : Nat) (h : fmt.drop pos = 37 :: (digits ++ spec :: rest))
    (hd : ∀ d ∈ digits, 48 ≤ d ∧ d ≤ 57) (hl : digits.length ≤ 3)
    (hsd : digits.length < 3 → ¬ (48 ≤ spec ∧ spec ≤ 57))
    (hspec : spec ≠ 100 ∧ spec ≠ 105 ∧ spec ≠ 117 ∧ spec ≠ 120 ∧ spec ≠ 88 ∧ spec ≠ 99)
    (hs0 : spec ≠ 0) (hs37 : digits = [] → spec ≠ 37) (hb : spec < 256) (hvi : vi ≤ 3) :
    printIter fmt v pos vi = ⟨[spec], [], pos + digits.length + 2, vi, true⟩ := by
  obtain ⟨f1, f2, f3, f4, f5⟩ := specifier_facts fmt pos digits rest spec h hd hl hsd hs0 hs37
  have hc : (if vi > 3 then 3 else vi) = vi := if_neg (by omega)
  have hw : write_char spec = spec := Nat.mod_eq_of_lt hb
  unfold printIter
  simp only [f1, f2, f3, f4, f5, hc, hw, hs0, hspec.1, hspec.2.1, hspec.2.2.1, hspec.2.2.2.1,
    hspec.2.2.2.2.1, hspec.2.2.2.2.2, beq_iff_eq, bne_iff_ne, ne_eq, not_true_eq_false,
    if_false, Bool.or_eq_true, or_self, OfNat.ofNat_ne_zero, Nat.reduceEqDiff,
    Iter.mk.injEq, true_and, and_true]
  omega

/-- Claim C15.  When the character after `'%'` and its width digits is not one of
`d, i, u, x, X, c` (nor NUL, nor a second `'%'` right after the first), the pass writes
exactly that character, nothing for the `'%'` and the digits, reads no value and leaves
`value_index` alone, so that the next conversion formats the value it would format
otherwise (`"%q%u"` prints `'q'` and then what `"%u"` prints). -/
theorem print_unknown_specifier (fmt v : List Nat) (n pos vi : Nat) (digits rest : List Nat)
    (spec : Nat) (h : fmt.drop pos = 37 :: (digits ++ spec :: rest))
    (hd : ∀ d ∈ digits, 48 ≤ d ∧ d ≤ 57) (hl : digits.length ≤ 3)
    (hsd : digits.length < 3 → ¬ (48 ≤ spec ∧ spec ≤ 57))
    (hspec : spec ≠ 100 ∧ spec ≠ 105 ∧ spec ≠ 117 ∧ spec ≠ 120 ∧ spec ≠ 88 ∧ spec ≠ 99)
    (hs0 : spec ≠ 0) (hs37 : digits = [] → spec ≠ 37) (hb : spec < 256) (hvi : vi ≤ 3) :
    printIter fmt v pos vi = ⟨[spec], [], pos + digits.length + 2, vi, true⟩
    ∧ (printLoop fmt v (n + 1) pos vi).1
        = spec :: (printLoop fmt v n (pos + digits.length + 2) vi).1
    ∧ (printLoop fmt v (n + 1) pos vi).2 = (printLoop fmt v n (pos + digits.length + 2) vi).2
    ∧ (∀ v0 v1 v2 v3, print (str "%q%u") v0 v1 v2 v3 = 113 :: print (str "%u") v0 v1 v2 v3)
    ∧ (∀ v0 v1 v2 v3, print (str "a%12zb") v0 v1 v2 v3 = str "azb") := by
  have hi := printIter_unknown fmt v pos vi digits rest spec h hd hl hsd hspec hs0 hs37 hb hvi
  refine ⟨hi, ?_, ?_, ?_, ?_⟩
  · rw [printLoop, hi]
    simp
  · rw [printLoop, hi]
    simp
  · intro v0 v1 v2 v3
    simp [print, printLoop, printIter, widthLoop, bump, str, write_char]
  · intro v0 v1 v2 v3
    simp [print, printLoop, printIter, widthLoop, str, write_char]

theorem print_unknown_specifier_witness :
    printIter (str "a%12zb") [7, 8, 9, 10] 1 2
        = ⟨[122], [], 1 + (str "12").length + 2, 2, true⟩
    ∧ (printLoop (str "a%12zb") [7, 8, 9, 10] (126 + 1) 1 2).1
        = 122 :: (printLoop (str "a%12zb") [7, 8, 9, 10] 126 (1 + (str "12").length + 2) 2).1
    ∧ (printLoop (str "a%12zb") [7, 8, 9, 10] (126 + 1) 1 2).2
        = (printLoop (str "a%12zb") [7, 8, 9, 10] 126 (1 + (str "12").length + 2) 2).2
    ∧ (∀ v0 v1 v2 v3, print (str "%q%u") v0 v1 v2 v3 = 113 :: print (str "%u") v0 v1 v2 v3)
    ∧ (∀ v0 v1 v2 v3, print (str "a%12zb") v0 v1 v2 v3 = str "azb") :=
  print_unknown_specifier (str "a%12zb") [7, 8, 9, 10] 126 1 2 (str "12") (str "b") 122
    (by decide) (by decide) (by decide) (by decide) (by decide) (by decide) (by decide)
    (by decide) (by decide)

theorem printIter_char (fmt v : List Nat) (pos vi : Nat) (digits rest : List Nat)
    (h : fmt.drop pos = 37 :: (digits ++ 99 :: rest))
    (hd : ∀ d ∈ digits, 48 ≤ d ∧ d ≤ 57) (hl : digits.length ≤ 3) :
    printIter fmt v pos vi
      = ⟨[v.getD vi 0 % 256], [vi], pos + digits.length + 2, bump vi, true⟩ := by
  obtain ⟨f1, f2, f3, f4, f5⟩ := specifier_facts fmt pos digits rest 99 h hd hl
    (by intro _; omega) (by omega) (by intro _; omega)
  have hand : v.getD vi 0 &&& 0xFF = v.getD vi 0 % 256 := by
    have h8 : (0xFF : Nat) = 2 ^ 8 - 1 := by norm_num
    rw [h8, Nat.and_pow_two_sub_one_eq_mod]
  have hw : write_char (v.getD vi 0 % 256) = v.getD vi 0 % 256 := Nat.mod_mod _ _
  unfold printIter
  simp only [f1, f2, f3, f4, f5, hand, hw, beq_iff_eq, bne_iff_ne, ne_eq, not_true_eq_false,
    if_false, if_true, Bool.or_eq_true, or_self, OfNat.ofNat_ne_zero, Nat.reduceEqDiff,
    Iter.mk.injEq, true_and, and_true]
  omega

/-- Claim C17.  The conversion `c` emits exactly one byte, the low 8 bits of the next value
argument, without translation (the value 10 gives a bare `'\n'`) and without padding,
whatever width digits precede it. -/
theorem print_char_conversion (fmt v : List Nat) (n pos vi : Nat) (digits rest : List Nat)
    (h : fmt.drop pos = 37 :: (digits ++ 99 :: rest))
    (hd : ∀ d ∈ digits, 48 ≤ d ∧ d ≤ 57) (hl : digits.length ≤ 3) :
    printIter fmt v pos vi
        = ⟨[v.getD vi 0 % 256], [vi], pos + digits.length + 2, bump vi, true⟩
    ∧ (printLoop fmt v (n + 1) pos vi).1
        = v.getD vi 0 % 256 :: (printLoop fmt v n (pos + digits.length + 2) (bump vi)).1
    ∧ print (str "%c") 10 0 0 0 = [10]
    ∧ print (str "%7c") 65 0 0 0 = str "A"
    ∧ print (str "%05c|%c") 266 4294967295 0 0 = [10, 124, 255] := by
  have hi := printIter_char fmt v pos vi digits rest h hd hl
  refine ⟨hi, ?_, by decide, by decide, by decide⟩
  rw [printLoop, hi]
  simp

theorem print_char_conversion_witness :
    printIter (str "a%05c") [266, 8, 9, 10] 1 0
        = ⟨[([266, 8, 9, 10] : List Nat).getD 0 0 % 256], [0], 1 + (str "05").length + 2,
            bump 0, true⟩
    ∧ (printLoop (str "a%05c") [266, 8, 9, 10] (126 + 1) 1 0).1
        = ([266, 8, 9, 10] : List Nat).getD 0 0 % 256
            :: (printLoop (str "a%05c") [266, 8, 9, 10] 126 (1 + (str "05").length + 2)
                (bump 0)).1
    ∧ print (str "%c") 10 0 0 0 = [10]
    ∧ print (str "%7c") 65 0 0 0 = str "A"
    ∧ print (str "%05c|%c") 266 4294967295 0 0 = [10, 124, 255] :=
  print_char_conversion (str "a%05c") [266, 8, 9, 10] 126 1 0 (str "05") [] (by decide)
    (by decide) (by decide)

/-- Over a run of characters other than `'%'` and NUL the main loop writes the literal
bytes of as many of them as its iteration budget allows and goes on behind the run with
what is left of the budget. -/
theorem printLoop_run (fmt v : List Nat) :
    ∀ (lit : List Nat) (n pos vi : Nat) (rest : List Nat), fmt.drop pos = lit ++ rest →
      (∀ c ∈ lit, c ≠ 37 ∧ c ≠ 0) →
      printLoop fmt v n pos vi
        = ((lit.take n).flatMap litBytes
              ++ (printLoop fmt v (n - lit.length) (pos + lit.length) vi).1,
            (printLoop fmt v (n - lit.length) (pos + lit.length) vi).2)
  | [], n, pos, vi, _, _, _ => by simp
  | c :: l, 0, pos, vi, _, _, _ => by simp [printLoop]
  | c :: l, n + 1, pos, vi, rest, h, hl => by
    obtain ⟨hc, hdrop⟩ := getD_of_drop_cons fmt pos c (l ++ rest) (by simpa using h)
    have hcl := hl c (List.mem_cons_self _ _)
    have ih := printLoop_run fmt v l n (pos + 1) vi rest hdrop
      (fun x hx => hl x (List.mem_cons_of_mem _ hx))
    have hi : printIter fmt v pos vi = ⟨litBytes c, [], pos + 1, vi, true⟩ := by
      by_cases h10 : c = 10
      · simp [printIter, hc, h10, litBytes, -List.getD_eq_getElem?_getD]
      · simp [printIter, hc, h10, hcl.1, hcl.2, litBytes, -List.getD_eq_getElem?_getD]
    have e1 : n + 1 - (c :: l).length = n - l.length := by
      simp only [List.length_cons]
      omega
    have e2 : pos + (c :: l).length = pos + 1 + l.length := by
      simp only [List.length_cons]
      omega
    rw [printLoop, hi, e1, e2]
    simp only [if_true, ih, List.take_succ_cons, List.flatMap_cons, List.append_assoc,
      List.nil_append]

theorem printLoop_stop (fmt v : List Nat) (n pos vi : Nat) (h : fmt.getD pos 0 = 0) :
    printLoop fmt v n pos vi = ([], []) := by
  cases n with
  | zero => rfl
  | succ n => simp [printLoop, printIter, h, -List.getD_eq_getElem?_getD]

theorem print_run (lit : List Nat) (v0 v1 v2 v3 : Nat) (hl : ∀ c ∈ lit, c ≠ 37 ∧ c ≠ 0) :
    printLoop lit [v0, v1, v2, v3] 128 0 0 = ((lit.take 128).flatMap litBytes, []) := by
  rw [printLoop_run lit _ lit 128 0 0 [] (by simp) hl,
    printLoop_stop lit _ _ _ _ (List.getD_eq_default _ _ (by omega))]
  simp

/-- Claim C16.  For every prefix without `'%'` and NUL of at most 126 characters, `print`
on `prefix ++ "%"` emits what `print` emits on the prefix, then a single `'%'`, and
stops. -/
theorem print_trailing_percent (pre : List Nat) (v0 v1 v2 v3 : Nat)
    (hl : ∀ c ∈ pre, c ≠ 37 ∧ c ≠ 0) (hlen : pre.length ≤ 126) :
    print (pre ++ str "%") v0 v1 v2 v3 = print pre v0 v1 v2 v3 ++ [37]
    ∧ (printIter (pre ++ str "%") [v0, v1, v2, v3] pre.length 0).goes_on = false
    ∧ printReads (pre ++ str "%") v0 v1 v2 v3 = printReads pre v0 v1 v2 v3 := by
  have hs : str "%" = [37] := by decide
  have h1 : (pre ++ [37]).getD pre.length 0 = 37 := by
    rw [List.getD_eq_getElem?_getD, List.getElem?_append_right (Nat.le_refl _)]
    simp
  have h2 : (pre ++ [37]).getD (pre.length + 1) 0 = 0 :=
    List.getD_eq_default _ _ (by simp)
  have hi : printIter (pre ++ [37]) [v0, v1, v2, v3] pre.length 0
      = ⟨[37], [], pre.length + 1, 0, false⟩ := by
    simp [printIter, h1, h2, write_char, -List.getD_eq_getElem?_getD]
  have hrun := printLoop_run (pre ++ [37]) [v0, v1, v2, v3] pre 128 0 0 [37] (by simp) hl
  obtain ⟨m, hm⟩ : ∃ m, 128 - pre.length = m + 1 := ⟨127 - pre.length, by omega⟩
  have hrest : printLoop (pre ++ [37]) [v0, v1, v2, v3] (m + 1) pre.length 0
      = ([37], []) := by
    rw [printLoop, hi]
    rfl
  rw [hm, Nat.zero_add, hrest] at hrun
  rw [hs, print, print, printReads, printReads, hrun, print_run pre v0 v1 v2 v3 hl, hi]
  simp [List.take_of_length_le (by omega : pre.length ≤ 128)]

theorem print_trailing_percent_witness :
    print (str "ab\n" ++ str "%") 1 2 3 4 = print (str "ab\n") 1 2 3 4 ++ [37]
    ∧ (printIter (str "ab\n" ++ str "%") [1, 2, 3, 4] (str "ab\n").length 0).goes_on = false
    ∧ printReads (str "ab\n" ++ str "%") 1 2 3 4 = printReads (str "ab\n") 1 2 3 4 :=
  print_trailing_percent (str "ab\n") 1 2 3 4 (by decide) (by decide)

/-- Claim C18.  A specifier cut off after its width digits is dropped and ends the scan:
for every prefix without `'%'` and NUL and every string of one to three decimal digits,
`print` on `prefix ++ "%" ++ digits` emits what `print` emits on the prefix alone and reads
no value. -/
theorem print_truncated_specifier (pre digits : List Nat) (v0 v1 v2 v3 : Nat)
    (hl : ∀ c ∈ pre, c ≠ 37 ∧ c ≠ 0) (hd : ∀ d ∈ digits, 48 ≤ d ∧ d ≤ 57)
    (h1 : 1 ≤ digits.length) (h3 : digits.length ≤ 3) :
    print (pre ++ str "%" ++ digits) v0 v1 v2 v3 = print pre v0 v1 v2 v3
    ∧ printReads (pre ++ str "%" ++ digits) v0 v1 v2 v3 = [] := by
  have hs : str "%" = [37] := by decide
  have happ : pre ++ [37] ++ digits = pre ++ 37 :: digits := by simp
  rw [hs, happ, print, print, printReads, print_run pre v0 v1 v2 v3 hl]
  have hrun := printLoop_run (pre ++ 37 :: digits) [v0, v1, v2, v3] pre 128 0 0 (37 :: digits)
    rfl hl
  rw [Nat.zero_add] at hrun
  have hrest : printLoop (pre ++ 37 :: digits) [v0, v1, v2, v3] (128 - pre.length) pre.length 0
      = ([], []) := by
    cases hm : 128 - pre.length with
    | zero => rfl
    | succ m =>
      have hdrop : (pre ++ 37 :: digits).drop pre.length = 37 :: digits := List.drop_left _ _
      obtain ⟨f1, hdrop1⟩ := getD_of_drop_cons _ pre.length 37 digits hdrop
      have hw := widthLoop_digits (pre ++ 37 :: digits) digits 3 0 (pre.length + 1) []
        (by simp [hdrop1]) hd h3 (by intro _; simp)
      have hend : (pre ++ 37 :: digits).getD (pre.length + 1 + digits.length) 0 = 0 :=
        List.getD_eq_default _ _ (by simp; omega)
      cases digits with
      | nil => simp at h1
      | cons d ds =>
        obtain ⟨f2, _⟩ := getD_of_drop_cons _ (pre.length + 1) d ds hdrop1
        have hdig := hd d (List.mem_cons_self _ _)
        have f2a : ¬ d = 37 := by omega
        have f2b : ¬ d = 0 := by omega
        have hi : printIter (pre ++ 37 :: d :: ds) [v0, v1, v2, v3] pre.length 0
            = ⟨[], [], pre.length + 1 + (d :: ds).length, 0, false⟩ := by
          unfold printIter
          simp only [f1, f2, f2a, f2b, hw, hend, beq_iff_eq, bne_iff_ne, ne_eq,
            not_true_eq_false, if_false, if_true, OfNat.ofNat_ne_zero, Nat.reduceEqDiff]
        rw [printLoop, hi]
        rfl
  rw [hrun, hrest]
  simp

theorem print_truncated_specifier_witness :
    print (str "ab\n" ++ str "%" ++ str "05") 1 2 3 4 = print (str "ab\n") 1 2 3 4
    ∧ printReads (str "ab\n" ++ str "%" ++ str "05") 1 2 3 4 = [] :=
  print_truncated_specifier (str "ab\n") (str "05") 1 2 3 4 (by decide) (by decide)
    (by decide) (by decide)

/-! ## The value slots -/

theorem widthLoop_value (fmt : List Nat) :
    ∀ (digits : List Nat) (n w p : Nat) (rest : List Nat), fmt.drop p = digits ++ rest →
      (∀ d ∈ digits, 48 ≤ d ∧ d ≤ 57) → digits.length ≤ n →
      (digits.length < n → ¬ (48 ≤ rest.headD 0 ∧ rest.headD 0 ≤ 57)) →
      (widthLoop fmt n w p).1
        = digits.foldl
            (fun width c => ((((width <<< 3) + (width <<< 1)) % 256) + c - 48) % 256) w
  | [], 0, _, _, _, _, _, _, _ => rfl
  | [], n + 1, w, p, rest, h, _, _, hr => by
    have hc : fmt.getD p 0 = rest.headD 0 := by
      have := getD_drop_add fmt p 0
      rw [Nat.add_zero, h, List.nil_append] at this
      rw [this]
      cases rest <;> rfl
    have hnd := hr (by simp)
    rw [← hc] at hnd
    unfold widthLoop
    simp only []
    rw [if_pos (by
      simp only [Bool.or_eq_true, decide_eq_true_eq]
      omega)]
    rfl
  | d :: ds, 0, _, _, _, _, _, hl, _ => by simp at hl
  | d :: ds, n + 1, w, p, rest, h, hd, hl, hr => by
    obtain ⟨hc, hdrop⟩ := getD_of_drop_cons fmt p d (ds ++ rest) (by simpa using h)
    have hdig := hd d (List.mem_cons_self _ _)
    unfold widthLoop
    simp only []
    rw [if_neg (by
      simp only [Bool.or_eq_true, decide_eq_true_eq, hc]
      omega)]
    rw [widthLoop_value fmt ds n _ (p + 1) rest hdrop
      (fun x hx => hd x (List.mem_cons_of_mem _ hx))
      (by simp only [List.length_cons] at hl; omega)
      (fun hlt => hr (by simp only [List.length_cons]; omega)), hc]
    rfl

theorem printIter_conv (fmt v : List Nat) (pos vi : Nat) (digits rest : List Nat)
    (spec : Nat) (h : fmt.drop pos = 37 :: (digits ++ spec :: rest))
    (hd : ∀ d ∈ digits, 48 ≤ d ∧ d ≤ 57) (hl : digits.length ≤ 3)
    (hspec : isSpecifier spec = true) :
    printIter fmt v pos vi
      = ⟨convField spec (digits.head? == some 48) (decodeWidth digits) (v.getD vi 0), [vi],
          pos + digits.length + 2, bump vi, true⟩ := by
  have hcases : spec = 100 ∨ spec = 105 ∨ spec = 117 ∨ spec = 120 ∨ spec = 88 ∨ spec = 99 := by
    simpa [isSpecifier, or_assoc] using hspec
  obtain ⟨f1, f2, f3, f4, f5⟩ := specifier_facts fmt pos digits rest spec h hd hl
    (by intro _; omega) (by omega) (by intro _; omega)
  have hwv : (widthLoop fmt 3 0 (pos + 1)).1 = decodeWidth digits := by
    obtain ⟨_, hdrop⟩ := getD_of_drop_cons fmt pos 37 (digits ++ spec :: rest) h
    exact widthLoop_value fmt digits 3 0 (pos + 1) (spec :: rest) hdrop hd hl
      (by intro _; simp only [List.headD_cons]; omega)
  have hzf : (fmt.getD (pos + 1) 0 == 48) = (digits.head? == some 48) := by
    obtain ⟨_, hdrop⟩ := getD_of_drop_cons fmt pos 37 (digits ++ spec :: rest) h
    cases digits with
    | nil =>
      have hsp : fmt.getD (pos + 1) 0 = spec := f5
      rw [hsp]
      have : spec ≠ 48 := by omega
      simp [this]
    | cons d ds =>
      obtain ⟨hc, _⟩ := getD_of_drop_cons fmt (pos + 1) d (ds ++ spec :: rest)
        (by simpa using hdrop)
      rw [hc]
      simp
  have hand : v.getD vi 0 &&& 0xFF = v.getD vi 0 % 256 := by
    have h8 : (0xFF : Nat) = 2 ^ 8 - 1 := by norm_num
    rw [h8, Nat.and_pow_two_sub_one_eq_mod]
  have hw : write_char (v.getD vi 0 % 256) = v.getD vi 0 % 256 := Nat.mod_mod _ _
  have hpos : pos + 1 + digits.length + 1 = pos + digits.length + 2 := by omega
  unfold printIter convField
  simp only [f1, f2, f3, f4, f5, hwv, hzf, hand, hw, hpos, beq_iff_eq, bne_iff_ne, ne_eq,
    not_true_eq_false, if_false, Bool.or_eq_true, OfNat.ofNat_ne_zero, Nat.reduceEqDiff]
  rcases hcases with rfl | rfl | rfl | rfl | rfl | rfl <;> simp

theorem printIter_lit (fmt v : List Nat) (pos vi c : Nat) (hc : fmt.getD pos 0 = c)
    (h37 : c ≠ 37) (h0 : c ≠ 0) :
    printIter fmt v pos vi = ⟨litBytes c, [], pos + 1, vi, true⟩ := by
  by_cases h10 : c = 10
  · simp [printIter, hc, h10, litBytes, -List.getD_eq_getElem?_getD]
  · simp [printIter, hc, h10, h37, h0, litBytes, -List.getD_eq_getElem?_getD]

theorem printIter_pct (fmt v : List Nat) (pos vi : Nat) (h1 : fmt.getD pos 0 = 37)
    (h2 : fmt.getD (pos + 1) 0 = 37) :
    printIter fmt v pos vi = ⟨[37], [], pos + 2, vi, true⟩ := by
  simp [printIter, h1, h2, write_char, -List.getD_eq_getElem?_getD]

theorem all_isDigit (digits : List Nat) (h : digits.all isDigit = true) :
    ∀ d ∈ digits, 48 ≤ d ∧ d ≤ 57 := by
  intro d hd
  have := List.all_eq_true.mp h d hd
  simpa [isDigit] using this

theorem bump_min (k : Nat) : bump (min k 3) = min (k + 1) 3 := by
  unfold bump
  simp only []
  split <;> omega

theorem range_slots (k c : Nat) :
    min k 3 :: (List.range c).map (fun j => min (k + 1 + j) 3)
      = (List.range (c + 1)).map (fun j => min (k + j) 3) := by
  rw [List.range_succ_eq_map, List.map_cons, List.map_map]
  simp only [Nat.add_zero, List.cons.injEq, true_and]
  apply List.map_congr_left
  intro j _
  simp only [Function.comp_apply]
  congr 1
  omega

/-- The main loop over a format that begins with well-formed elements: each element takes
one pass, the conversion number `k` formats `v[min(k, 3)]`, and the scan goes on behind the
elements with `value_index = min(number of conversions, 3)`. -/
theorem printLoop_items (fmt v : List Nat) :
    ∀ (items : List Item) (n pos k : Nat) (rest : List Nat),
      fmt.drop pos = formatOf items ++ rest → (∀ it ∈ items, it.ok = true) →
      items.length ≤ n →
      printLoop fmt v n pos (min k 3)
        = (expected v items k
              ++ (printLoop fmt v (n - items.length) (pos + (formatOf items).length)
                    (min (k + conversions items) 3)).1,
            (List.range (conversions items)).map (fun j => min (k + j) 3)
              ++ (printLoop fmt v (n - items.length) (pos + (formatOf items).length)
                    (min (k + conversions items) 3)).2)
  | [], n, pos, k, _, _, _, _ => by
    simp [formatOf, expected, conversions]
  | it :: items, 0, _, _, _, _, _, hn => by simp at hn
  | it :: items, n + 1, pos, k, rest, h, hok, hn => by
    have hokit := hok it (List.mem_cons_self _ _)
    have hoks : ∀ x ∈ items, x.ok = true := fun x hx => hok x (List.mem_cons_of_mem _ hx)
    have hlen : items.length ≤ n := by
      simp only [List.length_cons] at hn
      omega
    have hfmt : formatOf (it :: items) = it.bytes ++ formatOf items := by
      simp [formatOf]
    rw [hfmt, List.append_assoc] at h
    have hdrop : fmt.drop (pos + it.bytes.length) = formatOf items ++ rest :=
      drop_add_of_drop fmt pos it.bytes (formatOf items ++ rest) h
    have hsub : n + 1 - (it :: items).length = n - items.length := by
      simp only [List.length_cons]
      omega
    have hposl : pos + (formatOf (it :: items)).length
        = pos + it.bytes.length + (formatOf items).length := by
      rw [hfmt, List.length_append]
      omega
    rw [hsub, hposl]
    cases it with
    | lit c =>
      have hc : c ≠ 37 ∧ c ≠ 0 ∧ c < 256 := by
        simpa [Item.ok, and_assoc] using hokit
      obtain ⟨hget, _⟩ := getD_of_drop_cons fmt pos c (formatOf items ++ rest)
        (by simpa [Item.bytes] using h)
      have hi := printIter_lit fmt v pos (min k 3) c hget hc.1 hc.2.1
      have hlb : litBytes c = crlf c := by
        unfold litBytes crlf write_char
        split
        · rfl
        · rw [Nat.mod_eq_of_lt hc.2.2]
      have ih := printLoop_items fmt v items n (pos + 1) k rest
        (by simpa [Item.bytes] using hdrop) hoks hlen
      rw [printLoop, hi]
      simp only [if_true, ih, hlb, expected, conversions, Item.bytes, List.length_singleton,
        List.append_assoc, List.nil_append]
    | percent =>
      obtain ⟨h1, hd1⟩ := getD_of_drop_cons fmt pos 37 (37 :: (formatOf items ++ rest))
        (by simpa [Item.bytes] using h)
      obtain ⟨h2, _⟩ := getD_of_drop_cons fmt (pos + 1) 37 (formatOf items ++ rest) hd1
      have hi := printIter_pct fmt v pos (min k 3) h1 h2
      have ih := printLoop_items fmt v items n (pos + 2) k rest
        (by simpa [Item.bytes] using hdrop) hoks hlen
      rw [printLoop, hi]
      simp [ih, expected, conversions, Item.bytes]
    | conv digits spec =>
      have hc : (digits.all isDigit = true ∧ digits.length ≤ 3) ∧ isSpecifier spec = true := by
        simpa [Item.ok] using hokit
      have hd := all_isDigit digits hc.1.1
      have hi := printIter_conv fmt v pos (min k 3) digits (formatOf items ++ rest) spec
        (by simpa [Item.bytes] using h) hd hc.1.2 hc.2
      have hb : pos + (Item.conv digits spec).bytes.length = pos + digits.length + 2 := by
        simp [Item.bytes]
        omega
      rw [hb] at hdrop ⊢
      have ih := printLoop_items fmt v items n (pos + digits.length + 2) (k + 1) rest
        hdrop hoks hlen
      have hk : k + 1 + conversions items = k + (conversions items + 1) := by omega
      rw [printLoop, hi]
      simp only [if_true, bump_min, ih, expected, conversions, hk, List.append_assoc,
        List.singleton_append, ← range_slots, Nat.min_assoc, Nat.min_self]
      rfl
    | other digits spec =>
      have hc := hokit
      simp only [Item.ok, Bool.and_eq_true, Bool.or_eq_true, decide_eq_true_eq,
        Bool.not_eq_true', bne_iff_ne, ne_eq, List.isEmpty_eq_true] at hc
      obtain ⟨⟨⟨⟨⟨⟨hdig, hl3⟩, hns⟩, hs0⟩, hb256⟩, hmax⟩, hpp⟩ := hc
      have hd := all_isDigit digits hdig
      have hnspec : spec ≠ 100 ∧ spec ≠ 105 ∧ spec ≠ 117 ∧ spec ≠ 120 ∧ spec ≠ 88
          ∧ spec ≠ 99 := by
        simpa [isSpecifier, not_or, and_assoc] using hns
      have hi := printIter_unknown fmt v pos (min k 3) digits (formatOf items ++ rest) spec
        (by simpa [Item.bytes] using h) hd hl3
        (by
          intro hlt
          rcases hmax with h3 | hnd
          · omega
          · simpa [isDigit] using hnd)
        hnspec hs0
        (by
          intro hnil
          rcases hpp with hne | h37
          · rw [hnil] at hne
            simp at hne
          · exact h37)
        hb256 (by omega)
      have hb : pos + (Item.other digits spec).bytes.length = pos + digits.length + 2 := by
        simp [Item.bytes]
        omega
      rw [hb] at hdrop ⊢
      have ih := printLoop_items fmt v items n (pos + digits.length + 2) k rest
        hdrop hoks hlen
      rw [printLoop, hi]
      simp [ih, expected, conversions]

/-- Claim C9.  The value-consuming conversions take the four arguments left to right and
saturate at the last one.  For every format string the `k`-th read of `v[]` (counting
from 0) is at index `min(k, 3)`, hence never outside the four arguments.  For every format
that begins with well-formed elements (literal characters, `"%%"`, conversions with up to
three width digits, unknown specifiers), the output of `print` begins with what those
elements are to write when the conversion number `k` formats `v[min(k, 3)]` with the
encoder, flags and width of its specifier, and the scan goes on behind them with
`value_index = min(number of conversions, 3)`; six conversions, with and without width,
over four values format the fourth value three times. -/
theorem print_value_slots (fmt : List Nat) (items : List Item) (rest : List Nat)
    (v0 v1 v2 v3 k : Nat) (hk : k < (printReads fmt v0 v1 v2 v3).length)
    (hok : ∀ it ∈ items, it.ok = true) (hlen : items.length ≤ 128) :
    (printReads fmt v0 v1 v2 v3)[k]? = some (min k 3)
    ∧ print (formatOf items ++ rest) v0 v1 v2 v3
        = expected [v0, v1, v2, v3] items 0
          ++ (printLoop (formatOf items ++ rest) [v0, v1, v2, v3] (128 - items.length)
                (formatOf items).length (min (conversions items) 3)).1
    ∧ print (formatOf items) v0 v1 v2 v3 = expected [v0, v1, v2, v3] items 0
    ∧ printReads (formatOf items) v0 v1 v2 v3
        = (List.range (conversions items)).map (fun j => min j 3)
    ∧ expected [1, 2, 3, 65] [Item.conv [] 117, Item.conv [51] 117, Item.conv [51] 120,
          Item.conv [48, 51] 88, Item.conv [] 99, Item.conv [53] 100] 0
        = str "1  2  3041A   65"
    ∧ print (str "%u|%3u|%3x|%03X|%c|%5d") 1 2 3 65 = str "1|  2|  3|041|A|   65"
    ∧ print (str "%u%d%x%i%u%X") 1 2 3 4 = str "123444" := by
  have hreads := printLoop_reads fmt [v0, v1, v2, v3] 128 0 0 k (by omega) hk
  rw [Nat.zero_add] at hreads
  have hgen := printLoop_items (formatOf items ++ rest) [v0, v1, v2, v3] items 128 0 0 rest
    rfl hok hlen
  have hnil := printLoop_items (formatOf items) [v0, v1, v2, v3] items 128 0 0 []
    (by simp) hok hlen
  simp only [Nat.zero_min, Nat.zero_add, List.append_nil] at hgen hnil
  rw [printLoop_stop (formatOf items) [v0, v1, v2, v3] (128 - items.length)
    (formatOf items).length (min (conversions items) 3)
    (List.getD_eq_default _ _ (Nat.le_refl _))] at hnil
  simp only [List.append_nil] at hnil
  refine ⟨hreads, ?_, ?_, ?_, by decide, by decide, by decide⟩
  · rw [print, hgen]
  · rw [print, hnil]
  · rw [printReads, hnil]

theorem print_value_slots_witness :
    (printReads (str "%u%d%x%i%u%X") 1 2 3 65)[5]? = some (min 5 3)
    ∧ print (formatOf [Item.conv [] 117, Item.lit 124, Item.conv [51] 117, Item.percent,
            Item.conv [48, 51] 88, Item.other [49] 113, Item.conv [] 99, Item.conv [53] 100]
          ++ [37]) 1 2 3 65
        = expected [1, 2, 3, 65] [Item.conv [] 117, Item.lit 124, Item.conv [51] 117,
            Item.percent, Item.conv [48, 51] 88, Item.other [49] 113, Item.conv [] 99,
            Item.conv [53] 100] 0
          ++ (printLoop (formatOf [Item.conv [] 117, Item.lit 124, Item.conv [51] 117,
                  Item.percent, Item.conv [48, 51] 88, Item.other [49] 113, Item.conv [] 99,
                  Item.conv [53] 100] ++ [37])
                [1, 2, 3, 65]
                (128 - [Item.conv [] 117, Item.lit 124, Item.conv [51] 117, Item.percent,
                  Item.conv [48, 51] 88, Item.other [49] 113, Item.conv [] 99,
                  Item.conv [53] 100].length)
                (formatOf [Item.conv [] 117, Item.lit 124, Item.conv [51] 117, Item.percent,
                  Item.conv [48, 51] 88, Item.other [49] 113, Item.conv [] 99,
                  Item.conv [53] 100]).length
                (min (conversions [Item.conv [] 117, Item.lit 124, Item.conv [51] 117,
                  Item.percent, Item.conv [48, 51] 88, Item.other [49] 113, Item.conv [] 99,
                  Item.conv [53] 100]) 3)).1
    ∧ print (formatOf [Item.conv [] 117, Item.lit 124, Item.conv [51] 117, Item.percent,
          Item.conv [48, 51] 88, Item.other [49] 113, Item.conv [] 99, Item.conv [53] 100])
          1 2 3 65
        = expected [1, 2, 3, 65] [Item.conv [] 117, Item.lit 124, Item.conv [51] 117,
            Item.percent, Item.conv [48, 51] 88, Item.other [49] 113, Item.conv [] 99,
            Item.conv [53] 100] 0
    ∧ printReads (formatOf [Item.conv [] 117, Item.lit 124, Item.conv [51] 117,
          Item.percent, Item.conv [48, 51] 88, Item.other [49] 113, Item.conv [] 99,
          Item.conv [53] 100]) 1 2 3 65
        = (List.range (conversions [Item.conv [] 117, Item.lit 124, Item.conv [51] 117,
            Item.percent, Item.conv [48, 51] 88, Item.other [49] 113, Item.conv [] 99,
            Item.conv [53] 100])).map (fun j => min j 3)
    ∧ expected [1, 2, 3, 65] [Item.conv [] 117, Item.conv [51] 117, Item.conv [51] 120,
          Item.conv [48, 51] 88, Item.conv [] 99, Item.conv [53] 100] 0
        = str "1  2  3041A   65"
    ∧ print (str "%u|%3u|%3x|%03X|%c|%5d") 1 2 3 65 = str "1|  2|  3|041|A|   65"
    ∧ print (str "%u%d%x%i%u%X") 1 2 3 4 = str "123444" :=
  print_value_slots (str "%u%d%x%i%u%X")
    [Item.conv [] 117, Item.lit 124, Item.conv [51] 117, Item.percent, Item.conv [48, 51] 88,
      Item.other [49] 113, Item.conv [] 99, Item.conv [53] 100]
    [37] 1 2 3 65 5 (by decide) (by decide) (by decide)

/-! ## Buffer accesses stay in bounds -/

theorem decIter_out_index (neg : Bool) (s : DecState) (p : Nat) :
    (decIter neg s p).out_index = (s.out_index + 1) % 256 := by
  unfold decIter
  simp only []
  split_ifs <;> rfl

theorem decIterIdx_mem (neg : Bool) (s : DecState) (p i : Nat) (h : i ∈ decIterIdx neg s p) :
    i = s.out_index ∨ i = (s.out_index + 255) % 256 := by
  unfold decIterIdx at h
  simp only [] at h
  split_ifs at h <;> simp at h <;> omega

theorem decLog_bound (neg : Bool) : ∀ (ps : List Nat) (s : DecState), 1 ≤ s.out_index →
    s.out_index + ps.length ≤ 255 →
    ∀ i ∈ decLog neg s ps, s.out_index ≤ i + 1 ∧ i < s.out_index + ps.length
  | [], _, _, _, i, hi => by simp [decLog] at hi
  | p :: ps, s, h1, h2, i, hi => by
    simp only [List.length_cons] at h2 ⊢
    rw [decLog, List.mem_append] at hi
    rcases hi with hi | hi
    · have := decIterIdx_mem neg s p i hi
      omega
    · have ho := decIter_out_index neg s p
      have hb := decLog_bound neg ps (decIter neg s p) (by rw [ho]; omega) (by rw [ho]; omega)
        i hi
      rw [ho] at hb
      omega

theorem hexIter_out_index (v fill off : Nat) (s : HexState) (i : Nat) :
    (hexIter v fill off s i).out_index = (s.out_index + 1) % 256 := by
  unfold hexIter
  simp only []
  split_ifs <;> rfl

theorem hexLog_bound (v fill off : Nat) : ∀ (l : List Nat) (s : HexState),
    s.out_index + l.length ≤ 255 →
    ∀ i ∈ hexLog v fill off s l, s.out_index ≤ i ∧ i < s.out_index + l.length
  | [], _, _, i, hi => by simp [hexLog] at hi
  | d :: l, s, h2, i, hi => by
    simp only [List.length_cons] at h2 ⊢
    rw [hexLog, List.mem_cons] at hi
    rcases hi with hi | hi
    · omega
    · have ho := hexIter_out_index v fill off s d
      have hb := hexLog_bound v fill off l (hexIter v fill off s d) (by rw [ho]; omega) i hi
      rw [ho] at hb
      omega

theorem decLoop_msd (neg : Bool) (u : Nat) (hu : u < 10 ^ 10) :
    20 ≤ (decLoop neg u).msd_index ∧ (decLoop neg u).msd_index ≤ 30 := by
  have hle := decimal_length_le u hu
  have hpos := decimal_length_pos u
  rw [← decPlace_msd_index, decLoop_place neg u hu]
  cases neg <;> simp <;> omega

theorem hexLoop_msd (v fill : Nat) (uppercase : Bool) (hv : v < 16 ^ 8) :
    7 ≤ (hexLoop v fill (if uppercase then 55 else 87)).msd_index
    ∧ (hexLoop v fill (if uppercase then 55 else 87)).msd_index ≤ 14 := by
  have hle := hexadecimal_length_le uppercase v hv
  have hpos := hexadecimal_length_pos uppercase v
  rw [← hexPlace_msd_index, hexLoop_place v fill uppercase hv]
  simp only []
  omega

theorem closing_reads_bound (cap msd width i : Nat) (hcap : cap < 256) (hm : msd < cap)
    (hw : width ≤ cap)
    (hi : i ∈ (List.range (if width > (cap + 256 - msd) % 256
                then (width, (cap + 256 - width) % 256)
                else ((cap + 256 - msd) % 256, msd)).1).map
              (fun j => (if width > (cap + 256 - msd) % 256
                then (width, (cap + 256 - width) % 256)
                else ((cap + 256 - msd) % 256, msd)).2 + j)) :
    i < cap := by
  simp only [List.mem_map, List.mem_range] at hi
  obtain ⟨j, hj, rfl⟩ := hi
  split_ifs at hj ⊢ with h
  · simp only [] at hj ⊢
    omega
  · simp only [] at hj ⊢
    omega

theorem decAccess_bound (value : Nat) (is_signed : Bool) (width : Nat)
    (hv : value < 4294967296) : ∀ i ∈ decAccess value is_signed width, i < 32 := by
  intro i hi
  unfold decAccess at hi
  simp only [List.mem_append, List.mem_range, List.mem_singleton] at hi
  rcases hi with ((hi | hi) | hi) | hi
  · omega
  · omega
  · have := decLog_bound _ powers ⟨_, 21, 0, List.replicate 31 32 ++ [0]⟩ (by simp)
      (by simp [powers]) i hi
    simp only [powers, List.length_cons, List.length_nil] at this
    omega
  · have hu : (if (is_signed && (value &&& 0x80000000 != 0)) = true
        then ((4294967295 - value) + 1) % 4294967296 else value) < 10 ^ 10 := by
      split <;> omega
    have hm := decLoop_msd (is_signed && (value &&& 0x80000000 != 0)) _ hu
    have := closing_reads_bound 31 _ (if width > 31 then 31 else width) i (by omega)
      (by omega) (by split <;> omega) hi
    omega

theorem hexAccess_bound (value : Nat) (zero_fill uppercase : Bool) (width : Nat)
    (hv : value < 4294967296) : ∀ i ∈ hexAccess value zero_fill uppercase width, i < 16 := by
  intro i hi
  have hv' : value < 16 ^ 8 := by
    have : (16 : Nat) ^ 8 = 4294967296 := by norm_num
    omega
  unfold hexAccess at hi
  simp only [List.mem_append, List.mem_range, List.mem_singleton] at hi
  rcases hi with ((hi | hi) | hi) | hi
  · omega
  · omega
  · have := hexLog_bound _ _ _ (List.range 8) ⟨7, 0xFF, _⟩ (by simp) i hi
    simp only [List.length_range] at this
    omega
  · have hm := hexLoop_msd value (if zero_fill then 48 else 32) uppercase hv'
    have := closing_reads_bound 15 _ (if width > 15 then 15 else width) i (by omega)
      (by omega) (by split <;> omega) hi
    omega

/-- Claim C19.  For every 32-bit value, every flag combination and every width, each access
of `write_dec` to its buffer is at an index below 32 and each access of `write_hex` at an
index below 16.  Whatever 32-bit value and sign flag the loop of `write_dec` is entered
with, it writes at indices 20..30 only, so `'-'` is not written below index 0, and the loop
of `write_hex` writes at indices 7..14; the position found for the most significant digit
lies in 20..30, resp. 7..14, and so is never the sentinel 0, resp. 0xFF. -/
theorem buffer_accesses_in_bounds (value width : Nat) (is_signed zero_fill uppercase : Bool)
    (hv : value < 4294967296) :
    (∀ i ∈ decAccess value is_signed width, i < 32)
    ∧ (∀ i ∈ hexAccess value zero_fill uppercase width, i < 16)
    ∧ (∀ i ∈ decLog is_signed ⟨value, 21, 0, List.replicate 31 32 ++ [0]⟩ powers,
        20 ≤ i ∧ i ≤ 30)
    ∧ (∀ i ∈ hexLog value (if zero_fill then 48 else 32) (if uppercase then 55 else 87)
          ⟨7, 0xFF, List.replicate 15 (if zero_fill then 48 else 32) ++ [0]⟩ (List.range 8),
        7 ≤ i ∧ i ≤ 14)
    ∧ (20 ≤ (decLoop is_signed value).msd_index ∧ (decLoop is_signed value).msd_index ≤ 30
        ∧ (decLoop is_signed value).msd_index ≠ 0)
    ∧ (7 ≤ (hexLoop value (if zero_fill then 48 else 32)
              (if uppercase then 55 else 87)).msd_index
        ∧ (hexLoop value (if zero_fill then 48 else 32)
              (if uppercase then 55 else 87)).msd_index ≤ 14
        ∧ (hexLoop value (if zero_fill then 48 else 32)
              (if uppercase then 55 else 87)).msd_index ≠ 0xFF) := by
  have hv' : value < 16 ^ 8 := by
    have : (16 : Nat) ^ 8 = 4294967296 := by norm_num
    omega
  have hd := decLoop_msd is_signed value (by omega)
  have hh := hexLoop_msd value (if zero_fill then 48 else 32) uppercase hv'
  refine ⟨decAccess_bound value is_signed width hv,
    hexAccess_bound value zero_fill uppercase width hv, ?_, ?_, ⟨hd.1, hd.2, by omega⟩,
    ⟨hh.1, hh.2, by omega⟩⟩
  · intro i hi
    have := decLog_bound is_signed powers ⟨value, 21, 0, List.replicate 31 32 ++ [0]⟩
      (by simp) (by simp [powers]) i hi
    simp only [powers, List.length_cons, List.length_nil] at this
    omega
  · intro i hi
    have := hexLog_bound _ _ _ (List.range 8) ⟨7, 0xFF, _⟩ (by simp) i hi
    simp only [List.length_range] at this
    omega

theorem buffer_accesses_in_bounds_witness :
    (∀ i ∈ decAccess 4294967295 true 255, i < 32)
    ∧ (∀ i ∈ hexAccess 4294967295 true false 255, i < 16)
    ∧ (∀ i ∈ decLog true ⟨4294967295, 21, 0, List.replicate 31 32 ++ [0]⟩ powers,
        20 ≤ i ∧ i ≤ 30)
    ∧ (∀ i ∈ hexLog 4294967295 (if true then 48 else 32) (if false then 55 else 87)
          ⟨7, 0xFF, List.replicate 15 (if true then 48 else 32) ++ [0]⟩ (List.range 8),
        7 ≤ i ∧ i ≤ 14)
    ∧ (20 ≤ (decLoop true 4294967295).msd_index ∧ (decLoop true 4294967295).msd_index ≤ 30
        ∧ (decLoop true 4294967295).msd_index ≠ 0)
    ∧ (7 ≤ (hexLoop 4294967295 (if true then 48 else 32)
              (if false then 55 else 87)).msd_index
        ∧ (hexLoop 4294967295 (if true then 48 else 32)
              (if false then 55 else 87)).msd_index ≤ 14
        ∧ (hexLoop 4294967295 (if true then 48 else 32)
              (if false then 55 else 87)).msd_index ≠ 0xFF) :=
  buffer_accesses_in_bounds 4294967295 255 true true false (by decide)

end CUART

/-! ## The AXI4-Lite transactor -/

namespace Caxi4lite

theorem pow_32 : (2 : Nat) ^ 32 = 4294967296 := by norm_num

theorem pow_34 : (2 : Nat) ^ 34 = 17179869184 := by norm_num

theorem pow_64 : (2 : Nat) ^ 64 = 18446744073709551616 := by norm_num

theorem pow_65 : (2 : Nat) ^ 65 = 36893488147419103232 := by norm_num

theorem writeCommand_eq (addr data : Nat) (ha : addr < 4294967296) (hd : data < 4294967296) :
    writeCommand addr data = 2 ^ 64 + data * 2 ^ 32 + addr := by
  have h1 : (1 <<< 64) % 2 ^ 65 = 2 ^ 64 * 1 := by
    rw [Nat.shiftLeft_eq]
    norm_num
  have h2 : (data <<< 32) % 2 ^ 65 = data * 2 ^ 32 := by
    rw [Nat.shiftLeft_eq]
    apply Nat.mod_eq_of_lt
    rw [pow_32, pow_65]
    omega
  have h3 : 2 ^ 64 * 1 ||| data * 2 ^ 32 = 2 ^ 32 * (2 ^ 32 + data) := by
    rw [← Nat.mul_add_lt_is_or (by rw [pow_32, pow_64]; omega) 1]
    ring
  have h4 : 2 ^ 32 * (2 ^ 32 + data) ||| addr = 2 ^ 32 * (2 ^ 32 + data) + addr := by
    rw [← Nat.mul_add_lt_is_or (by rw [pow_32]; omega) (2 ^ 32 + data)]
  unfold writeCommand
  simp only [h1, h2, h3, h4]
  rw [pow_32, pow_64, pow_65]
  omega

theorem readCommand_eq (addr : Nat) (ha : addr < 4294967296) : readCommand addr = addr := by
  unfold readCommand
  apply Nat.mod_eq_of_lt
  rw [pow_65]
  omega

theorem status_eq (r : Nat) (hr : r < 2 ^ 34) : (r >>> 32) % 256 = r / 2 ^ 32 := by
  rw [Nat.shiftRight_eq_div_pow]
  rw [pow_34] at hr
  rw [pow_32]
  omega

theorem data_eq (r : Nat) : (r &&& 0xFFFFFFFF) % 4294967296 = r % 2 ^ 32 := by
  have h : (0xFFFFFFFF : Nat) = 2 ^ 32 - 1 := by norm_num
  rw [h, Nat.and_pow_two_sub_one_eq_mod, pow_32]
  omega

theorem write_some (addr data r : Nat) (ch : Channels) (rest : List Nat)
    (hs : ch.rsp_fifo = r :: rest) :
    write addr data ch
      = some ((r >>> 32) % 256,
          { cmd_fifo := ch.cmd_fifo ++ [writeCommand addr data], rsp_fifo := rest,
            log := ch.log ++ [ChanOp.send (writeCommand addr data), ChanOp.recv r] }) := by
  simp [write, writeCase, cmdWrite, rspRead, hs]

theorem write_none (addr data : Nat) (ch : Channels) (hs : ch.rsp_fifo = []) :
    write addr data ch = none := by
  simp [write, writeCase, cmdWrite, rspRead, hs]

theorem read_some (addr p_data r : Nat) (ch : Channels) (rest : List Nat)
    (hs : ch.rsp_fifo = r :: rest) :
    read addr p_data ch
      = some ((r >>> 32) % 256, (r &&& 0xFFFFFFFF) % 4294967296,
          { cmd_fifo := ch.cmd_fifo ++ [readCommand addr], rsp_fifo := rest,
            log := ch.log ++ [ChanOp.send (readCommand addr), ChanOp.recv r] }) := by
  simp [read, readCase, cmdWrite, rspRead, hs]

theorem read_none (addr p_data : Nat) (ch : Channels) (hs : ch.rsp_fifo = []) :
    read addr p_data ch = none := by
  simp [read, readCase, cmdWrite, rspRead, hs]

/-- Claim C11.  For 32-bit `addr` and `data`, `write(addr, data)` puts exactly one word on
the command channel, `2^64 + data * 2^32 + addr` (bit 64 set, `data` in bits 63..32, `addr`
in bits 31..0), then takes exactly one word `r` from the response channel and returns
`r div 2^32`, whatever that status is. -/
theorem write_transaction (addr data r : Nat) (ch : Channels) (rest : List Nat)
    (ha : addr < 4294967296) (hd : data < 4294967296) (hr : r < 2 ^ 34)
    (hs : ch.rsp_fifo = r :: rest) :
    write addr data ch
        = some (r / 2 ^ 32,
            { cmd_fifo := ch.cmd_fifo ++ [2 ^ 64 + data * 2 ^ 32 + addr], rsp_fifo := rest,
              log := ch.log ++ [ChanOp.send (2 ^ 64 + data * 2 ^ 32 + addr), ChanOp.recv r] })
    ∧ (2 ^ 64 + data * 2 ^ 32 + addr).testBit 64 = true
    ∧ (2 ^ 64 + data * 2 ^ 32 + addr) / 2 ^ 32 % 2 ^ 32 = data
    ∧ (2 ^ 64 + data * 2 ^ 32 + addr) % 2 ^ 32 = addr := by
  refine ⟨?_, ?_, ?_, ?_⟩
  · rw [write_some addr data r ch rest hs, writeCommand_eq addr data ha hd, status_eq r hr]
  · rw [Nat.testBit_to_div_mod, pow_32, pow_64]
    simp only [decide_eq_true_eq]
    omega
  · rw [pow_32, pow_64]
    omega
  · rw [pow_32, pow_64]
    omega

theorem write_transaction_witness :
    write 0x40000010 0xDEADBEEF ⟨[], [0x300000000], []⟩
        = some (0x300000000 / 2 ^ 32,
            { cmd_fifo := ([] : List Nat) ++ [2 ^ 64 + 0xDEADBEEF * 2 ^ 32 + 0x40000010],
              rsp_fifo := [],
              log := ([] : List ChanOp)
                ++ [ChanOp.send (2 ^ 64 + 0xDEADBEEF * 2 ^ 32 + 0x40000010),
                    ChanOp.recv 0x300000000] })
    ∧ (2 ^ 64 + 0xDEADBEEF * 2 ^ 32 + 0x40000010).testBit 64 = true
    ∧ (2 ^ 64 + 0xDEADBEEF * 2 ^ 32 + 0x40000010) / 2 ^ 32 % 2 ^ 32 = 0xDEADBEEF
    ∧ (2 ^ 64 + 0xDEADBEEF * 2 ^ 32 + 0x40000010) % 2 ^ 32 = 0x40000010 :=
  write_transaction 0x40000010 0xDEADBEEF 0x300000000 ⟨[], [0x300000000], []⟩ []
    (by decide) (by decide) (by decide) rfl

/-- Claim C12.  For a 32-bit `addr`, `read(addr, p_data)` puts exactly one word on the
command channel, `addr` zero-extended (bit 64 clear, bits 63..32 zero), then takes exactly
one word `r` from the response channel, stores `r mod 2^32` in `*p_data` and returns
`r div 2^32`; `*p_data` is overwritten whether or not the status is zero. -/
theorem read_transaction (addr p_data r : Nat) (ch : Channels) (rest : List Nat)
    (ha : addr < 4294967296) (hr : r < 2 ^ 34) (hs : ch.rsp_fifo = r :: rest) :
    read addr p_data ch
        = some (r / 2 ^ 32, r % 2 ^ 32,
            { cmd_fifo := ch.cmd_fifo ++ [addr], rsp_fifo := rest,
              log := ch.log ++ [ChanOp.send addr, ChanOp.recv r] })
    ∧ addr.testBit 64 = false
    ∧ addr / 2 ^ 32 = 0 := by
  refine ⟨?_, ?_, ?_⟩
  · rw [read_some addr p_data r ch rest hs, readCommand_eq addr ha, status_eq r hr, data_eq]
  · apply Nat.testBit_lt_two_pow
    rw [pow_64]
    omega
  · rw [pow_32]
    omega

theorem read_transaction_witness :
    read 0x40000010 7 ⟨[], [0x3CAFEF00D], []⟩
        = some (0x3CAFEF00D / 2 ^ 32, 0x3CAFEF00D % 2 ^ 32,
            { cmd_fifo := ([] : List Nat) ++ [0x40000010], rsp_fifo := [],
              log := ([] : List ChanOp)
                ++ [ChanOp.send 0x40000010, ChanOp.recv 0x3CAFEF00D] })
    ∧ (0x40000010 : Nat).testBit 64 = false
    ∧ 0x40000010 / 2 ^ 32 = 0 :=
  read_transaction 0x40000010 7 0x3CAFEF00D ⟨[], [0x3CAFEF00D], []⟩ []
    (by decide) (by decide) rfl

/-- Claim C13.  Over a channel pair that records every operation, each `write` or `read`
call adds exactly `[send command, receive response]` to the record, in that order; a
`write` followed by a `read` gives `[send write-command, receive, send read-command,
receive]`, and a `write` whose response never arrives does not return, so that the command
of the `read` is not issued before the response of the `write` is consumed. -/
theorem transaction_order (addr data raddr p_data r1 r2 : Nat) (ch : Channels)
    (rest : List Nat) (hs : ch.rsp_fifo = r1 :: r2 :: rest) :
    (write addr data ch).map (fun x => x.2.log)
        = some (ch.log ++ [ChanOp.send (writeCommand addr data), ChanOp.recv r1])
    ∧ (read raddr p_data ch).map (fun x => x.2.2.log)
        = some (ch.log ++ [ChanOp.send (readCommand raddr), ChanOp.recv r1])
    ∧ ((write addr data ch).bind fun x => read raddr p_data x.2).map (fun y => y.2.2.log)
        = some (ch.log ++ [ChanOp.send (writeCommand addr data), ChanOp.recv r1,
            ChanOp.send (readCommand raddr), ChanOp.recv r2])
    ∧ ((write addr data { ch with rsp_fifo := [] }).bind fun x => read raddr p_data x.2)
        = none := by
  refine ⟨?_, ?_, ?_, ?_⟩
  · rw [write_some addr data r1 ch (r2 :: rest) hs]
    rfl
  · rw [read_some raddr p_data r1 ch (r2 :: rest) hs]
    rfl
  · rw [write_some addr data r1 ch (r2 :: rest) hs, Option.some_bind,
      read_some raddr p_data r2 _ rest rfl]
    simp
  · rw [write_none addr data _ rfl]
    rfl

theorem transaction_order_witness :
    (write 16 5 ⟨[], [0, 9], []⟩).map (fun x => x.2.log)
        = some (([] : List ChanOp) ++ [ChanOp.send (writeCommand 16 5), ChanOp.recv 0])
    ∧ (read 16 0 ⟨[], [0, 9], []⟩).map (fun x => x.2.2.log)
        = some (([] : List ChanOp) ++ [ChanOp.send (readCommand 16), ChanOp.recv 0])
    ∧ ((write 16 5 ⟨[], [0, 9], []⟩).bind fun x => read 16 0 x.2).map (fun y => y.2.2.log)
        = some (([] : List ChanOp) ++ [ChanOp.send (writeCommand 16 5), ChanOp.recv 0,
            ChanOp.send (readCommand 16), ChanOp.recv 9])
    ∧ ((write 16 5 { (⟨[], [0, 9], []⟩ : Channels) with rsp_fifo := [] }).bind
          fun x => read 16 0 x.2)
        = none :=
  transaction_order 16 5 16 0 0 9 ⟨[], [0, 9], []⟩ [] rfl

/-- Claim C20.  The command encoding is unambiguous: `(addr, data)` is recovered from the
write command word as the word `mod 2^32` and `(word div 2^32) mod 2^32`, so the encoding
is injective, and no write command word equals a read command word, every write word having
bit 64 set and every read word being below `2^32`. -/
theorem command_unambiguous (addr data addr' data' raddr : Nat) (ha : addr < 4294967296)
    (hd : data < 4294967296) (ha' : addr' < 4294967296) (hd' : data' < 4294967296)
    (hra : raddr < 4294967296) :
    (writeCommand addr data = writeCommand addr' data' → addr = addr' ∧ data = data')
    ∧ writeCommand addr data % 2 ^ 32 = addr
    ∧ writeCommand addr data / 2 ^ 32 % 2 ^ 32 = data
    ∧ writeCommand addr data ≠ readCommand raddr
    ∧ (writeCommand addr data).testBit 64 = true
    ∧ readCommand raddr < 2 ^ 32 := by
  rw [writeCommand_eq addr data ha hd, writeCommand_eq addr' data' ha' hd',
    readCommand_eq raddr hra, Nat.testBit_to_div_mod, pow_32, pow_64]
  simp only [decide_eq_true_eq]
  refine ⟨?_, ?_, ?_, ?_, ?_, ?_⟩ <;> omega

theorem command_unambiguous_witness :
    (writeCommand 16 5 = writeCommand 16 5 → 16 = 16 ∧ 5 = 5)
    ∧ writeCommand 16 5 % 2 ^ 32 = 16
    ∧ writeCommand 16 5 / 2 ^ 32 % 2 ^ 32 = 5
    ∧ writeCommand 16 5 ≠ readCommand 16
    ∧ (writeCommand 16 5).testBit 64 = true
    ∧ readCommand 16 < 2 ^ 32 :=
  command_unambiguous 16 5 16 5 16 (by decide) (by decide) (by decide) (by decide)
    (by decide)

end Caxi4lite
